import Mathlib

/-!
Verification of the money-forensics transaction-analysis core.

This file gives a shallow embedding, in Lean 4, of the analysis engine of the
repository (the `analyzeTransactions` pipeline and its pattern detectors), and
proves the stated properties of that engine against the embedding.

Modelling conventions:
* a JavaScript `Map<string, V>` is an association list `AList V` whose
  operations preserve insertion order exactly as the runtime does (updating a
  present key keeps its position, a fresh key is appended);
* a JavaScript `Set<string>` is a duplicate-free list in first-insertion order;
* `Array.prototype.sort` with the numeric comparators used by the code is the
  stable ascending sort `List.insertionSort` (a stable sort for a total
  preorder is unique, so any stable implementation is extensionally the same);
* amounts are rationals, timestamps are integers (epoch milliseconds);
* the two explicit-stack depth-first searches are written as fuel-indexed
  loops; the fuel is a proved upper bound on the number of iterations
  (`cycleLoop_fuel_adequate` and `shellLoop_fuel_adequate` below show the
  fuel is never exhausted), so the
  embedded function agrees with the unbounded while-loop of the source;
* `performance.now()` bookkeeping (the `processing_time_seconds` summary
  field) is wall-clock time and is not part of the embedded result.
-/

namespace MoneyForensics

/-- A validated transaction record (`Transaction` of types.ts): amounts are
rationals, timestamps epoch milliseconds. -/
structure Transaction where
  transaction_id : String
  sender_id : String
  receiver_id : String
  amount : ℚ
  timestamp : ℤ
deriving DecidableEq

/-- A fraud ring record.  Every risk score the code produces is an integer,
so the field is `ℕ`. -/
structure FraudRing where
  ring_id : String
  member_accounts : List String
  pattern_type : String
  risk_score : ℕ
deriving DecidableEq

/-- A suspicious-account record of the output. -/
structure SuspiciousAccount where
  account_id : String
  suspicion_score : ℚ
  detected_patterns : List String
  ring_id : String
deriving DecidableEq

/-- The summary block of the result (minus the wall-clock timing field). -/
structure AnalysisSummary where
  total_accounts_analyzed : ℕ
  suspicious_accounts_flagged : ℕ
  fraud_rings_detected : ℕ
deriving DecidableEq

/-- The terminal output of the core. -/
structure AnalysisResult where
  suspicious_accounts : List SuspiciousAccount
  fraud_rings : List FraudRing
  summary : AnalysisSummary
deriving DecidableEq

/-! ### Insertion-ordered maps (JavaScript `Map<string, V>`) -/

/-- Insertion-ordered string-keyed map. -/
abbrev AList (α : Type) := List (String × α)

/-- `Map.get`: the value at the first (hence only) occurrence of the key. -/
def getv {α : Type} : AList α → String → Option α
  | [], _ => none
  | (k, v) :: m, key => if k = key then some v else getv m key

/-- `Map.set`: replace in place when present, append when fresh. -/
def setv {α : Type} : AList α → String → α → AList α
  | [], key, v => [(key, v)]
  | (k, w) :: m, key, v => if k = key then (k, v) :: m else (k, w) :: setv m key v

/-- `map.get(k) || d`. -/
def getD {α : Type} (m : AList α) (k : String) (d : α) : α := (getv m k).getD d

/-- `Array.from(map.keys())`: keys in insertion order. -/
def keysOf {α : Type} (m : AList α) : List String := m.map (·.1)

/-- `Set.add` on an insertion-ordered set. -/
def insertSet (s : List String) (x : String) : List String :=
  if x ∈ s then s else s ++ [x]

/-- `new Set(l)` read back in iteration order: first occurrences, in order. -/
def dedupF (l : List String) : List String := l.foldl insertSet []

/-! ### String comparison and sorting (JavaScript semantics) -/

/-- Lexicographic `≤` on character lists by code point: the order
`Array.prototype.sort`'s default comparator uses on strings. -/
def charsLe : List Char → List Char → Bool
  | [], _ => true
  | _ :: _, [] => false
  | a :: as, b :: bs => a.toNat < b.toNat || (a.toNat == b.toNat && charsLe as bs)

/-- Lexicographic `≤` on strings. -/
def strLe (a b : String) : Prop := charsLe a.data b.data = true

instance : DecidableRel strLe := fun a b => by unfold strLe; infer_instance

/-- `[...path].sort()`: stable lexicographic sort of a string list. -/
def sortStrings (l : List String) : List String := List.insertionSort strLe l

/-- Ascending-by-timestamp order on transactions, the comparator
`(a, b) => a.timestamp.getTime() - b.timestamp.getTime()`. -/
def byTime (a b : Transaction) : Prop := a.timestamp ≤ b.timestamp

instance : DecidableRel byTime := fun a b => by unfold byTime; infer_instance

/-- `[...transactions].sort((a, b) => a.timestamp - b.timestamp)`. -/
def sortByTime (l : List Transaction) : List Transaction := List.insertionSort byTime l

/-- `key.split("->")` on the underlying character list. -/
def splitArrow : List Char → List (List Char)
  | [] => [[]]
  | '-' :: '>' :: rest => [] :: splitArrow rest
  | c :: rest =>
    match splitArrow rest with
    | [] => [[c]]
    | hd :: tl => (c :: hd) :: tl

/-- `key.split("->")` as strings. -/
def splitArrowS (s : String) : List String := (splitArrow s.data).map String.mk

/-! ### Graph construction -/

/-- `buildAdjacencyList`: account to the list of distinct counterparties it
has sent to, in first-transaction order. -/
def buildAdjacencyList (transactions : List Transaction) : AList (List String) :=
  transactions.foldl
    (fun adj t =>
      let adj1 := if (getv adj t.sender_id).isSome then adj else setv adj t.sender_id []
      let cur := getD adj1 t.sender_id []
      if t.receiver_id ∈ cur then adj1 else setv adj1 t.sender_id (cur ++ [t.receiver_id]))
    []

/-! ### Cycle detection (`detectCycles`) -/

/-- A frame of the explicit DFS stack: current node and current path. -/
structure Frame where
  node : String
  path : List String
deriving DecidableEq

/-- The dedup key of a cycle: member ids sorted lexicographically, joined. -/
def cycleKey (path : List String) : String :=
  String.intercalate "," (sortStrings path)

/-- One pass of `for (const next of neighbors)` in `detectCycles`: returns the
updated `seen`, the updated `cycles` and the frames pushed (in neighbor
order; the stack receives them so that the last is on top). -/
def cycleScan (start : String) (maxLength : ℕ) (path : List String) :
    List String → List String → List (List String) →
    List String × List (List String) × List Frame
  | [], seen, cycles => (seen, cycles, [])
  | next :: rest, seen, cycles =>
    if next = start ∧ 3 ≤ path.length ∧ path.length ≤ maxLength then
      let key := cycleKey path
      if key ∈ seen then cycleScan start maxLength path rest seen cycles
      else cycleScan start maxLength path rest (seen ++ [key]) (cycles ++ [path])
    else if next ∉ path ∧ path.length < maxLength then
      let r := cycleScan start maxLength path rest seen cycles
      (r.1, r.2.1, ⟨next, path ++ [next]⟩ :: r.2.2)
    else cycleScan start maxLength path rest seen cycles

/-- The `while (stack.length > 0)` loop of `detectCycles`, indexed by fuel.
The fuel bounds the number of iterations; `detectCycles` supplies a proved
upper bound, so the branch returning at fuel 0 is never taken. -/
def cycleLoop (adj : AList (List String)) (start : String) (maxLength : ℕ) :
    List Frame → ℕ → List String → List (List String) →
    List String × List (List String)
  | [], _, seen, cycles => (seen, cycles)
  | _ :: _, 0, seen, cycles => (seen, cycles)
  | f :: rest, fuel + 1, seen, cycles =>
    let neighbors := getD adj f.node []
    let r := cycleScan start maxLength f.path neighbors seen cycles
    cycleLoop adj start maxLength (r.2.2.reverse ++ rest) fuel r.1 r.2.1

/-- Total number of adjacency entries: the branching bound of the DFS. -/
def adjSize (adj : AList (List String)) : ℕ := (adj.map (fun p => p.2.length)).sum

/-- Weight of a DFS frame for the termination measure. -/
def frameWeight (B L : ℕ) (f : Frame) : ℕ := B ^ (L + 1 - f.path.length)

/-- Termination measure of a DFS stack. -/
def stackMeasure (B L : ℕ) (st : List Frame) : ℕ := (st.map (frameWeight B L)).sum

/-- Fuel sufficient for the whole search from one start node. -/
def cycleFuel (adj : AList (List String)) (maxLength : ℕ) : ℕ :=
  (adjSize adj + 2) ^ (maxLength + 1)

/-- `detectCycles`: simple directed cycles of length 3 to `maxLength`,
deduplicated by `cycleKey`.  `seen` persists across start nodes. -/
def detectCycles (adj : AList (List String)) (maxLength : ℕ := 5) : List (List String) :=
  ((keysOf adj).foldl
    (fun (acc : List String × List (List String)) start =>
      cycleLoop adj start maxLength [⟨start, [start]⟩] (cycleFuel adj maxLength) acc.1 acc.2)
    ([], [])).2

/-! ### Smurfing detection (`detectSmurfing`) -/

/-- 72 hours in milliseconds. -/
def WINDOW_MS : ℤ := 72 * 60 * 60 * 1000

/-- Group a transaction list by a key, preserving order within each group and
first-occurrence order of the keys. -/
def groupByKey (key : Transaction → String) (txs : List Transaction) :
    AList (List Transaction) :=
  txs.foldl (fun m t => setv m (key t) (getD m (key t) [] ++ [t])) []

/-- `if (!pats.includes(l)) pats.push(l); map.set(k, pats)`. -/
def addLabel (m : AList (List String)) (k : String) (l : String) : AList (List String) :=
  let pats := getD m k []
  setv m k (if l ∈ pats then pats else pats ++ [l])

/-- One fan-in window anchor for one receiver. -/
def fanInAnchor (sus : AList (List String)) (receiver : String)
    (txs : List Transaction) (anchor : Transaction) : AList (List String) :=
  let windowStart := anchor.timestamp
  let window := txs.filter (fun t =>
    windowStart ≤ t.timestamp ∧ t.timestamp ≤ windowStart + WINDOW_MS)
  let uniqueSenders := dedupF (window.map (·.sender_id))
  if 3 ≤ uniqueSenders.length then
    let sus1 := addLabel sus receiver "fan_in"
    uniqueSenders.foldl (fun m s => addLabel m s "smurfing_source") sus1
  else sus

/-- One fan-out window anchor for one sender. -/
def fanOutAnchor (sus : AList (List String)) (sender : String)
    (txs : List Transaction) (anchor : Transaction) : AList (List String) :=
  let windowStart := anchor.timestamp
  let window := txs.filter (fun t =>
    windowStart ≤ t.timestamp ∧ t.timestamp ≤ windowStart + WINDOW_MS)
  let uniqueReceivers := dedupF (window.map (·.receiver_id))
  if 3 ≤ uniqueReceivers.length then addLabel sus sender "fan_out" else sus

/-- `detectSmurfing`: fan-in then fan-out over 72-hour windows, every
transaction of an account serving as a window anchor. -/
def detectSmurfing (transactions : List Transaction) : AList (List String) :=
  let sorted := sortByTime transactions
  let receiverMap := groupByKey (·.receiver_id) sorted
  let afterFanIn := receiverMap.foldl
    (fun m e => e.2.foldl (fun m' a => fanInAnchor m' e.1 e.2 a) m) []
  let senderMap := groupByKey (·.sender_id) sorted
  senderMap.foldl (fun m e => e.2.foldl (fun m' a => fanOutAnchor m' e.1 e.2 a) m) afterFanIn

/-! ### Layered-shell detection (`detectLayeredShells`) -/

/-- The exact ordered path key the shell detector deduplicates by. -/
def pathKey (path : List String) : String := String.intercalate "," path

/-- Record step of the shell DFS: a popped path of length at least 4 whose
strictly interior nodes all have transaction count at most 3 is recorded,
deduplicated by the exact ordered path key. -/
def shellRecord (txCounts : AList ℕ) (path : List String)
    (seen : List String) (chains : List (List String)) :
    List String × List (List String) :=
  if 4 ≤ path.length then
    let intermediaries := (path.drop 1).dropLast
    if intermediaries.all (fun n => getD txCounts n 0 ≤ 3) then
      let key := pathKey path
      if key ∈ seen then (seen, chains) else (seen ++ [key], chains ++ [path])
    else (seen, chains)
  else (seen, chains)

/-- Push step of the shell DFS: extend paths shorter than 6 through
neighbors not yet on the path (in neighbor order). -/
def shellPushes (adj : AList (List String)) (f : Frame) : List Frame :=
  if f.path.length < 6 then
    ((getD adj f.node []).filter (fun next => next ∉ f.path)).map
      (fun next => ⟨next, f.path ++ [next]⟩)
  else []

/-- The `while` loop of `detectLayeredShells`, fuel-indexed like `cycleLoop`. -/
def shellLoop (adj : AList (List String)) (txCounts : AList ℕ) :
    List Frame → ℕ → List String → List (List String) →
    List String × List (List String)
  | [], _, seen, chains => (seen, chains)
  | _ :: _, 0, seen, chains => (seen, chains)
  | f :: rest, fuel + 1, seen, chains =>
    let r := shellRecord txCounts f.path seen chains
    shellLoop adj txCounts ((shellPushes adj f).reverse ++ rest) fuel r.1 r.2

/-- Fuel sufficient for the shell search from one start node. -/
def shellFuel (adj : AList (List String)) : ℕ := (adjSize adj + 2) ^ 7

/-- `detectLayeredShells`: chains of 4 to 6 nodes whose interior nodes are
low-activity, deduplicated by the exact ordered path key. -/
def detectLayeredShells (adj : AList (List String)) (transactionCounts : AList ℕ) :
    List (List String) :=
  ((keysOf adj).foldl
    (fun (acc : List String × List (List String)) start =>
      shellLoop adj transactionCounts [⟨start, [start]⟩] (shellFuel adj) acc.1 acc.2)
    ([], [])).2

/-! ### High-velocity detection (`detectHighVelocity`) -/

/-- 30 minutes in milliseconds. -/
def RAPID_WINDOW_MS : ℤ := 30 * 60 * 1000

/-- The anchor loop for one sender: label at the first qualifying window and
stop (the `break` of the source). -/
def hvLoop (sus : AList (List String)) (sender : String) (txs : List Transaction) :
    List Transaction → AList (List String)
  | [] => sus
  | anchor :: rest =>
    let rapid := txs.filter (fun t =>
      anchor.timestamp ≤ t.timestamp ∧ t.timestamp ≤ anchor.timestamp + RAPID_WINDOW_MS)
    if 4 ≤ rapid.length then addLabel sus sender "high_velocity"
    else hvLoop sus sender txs rest

/-- `detectHighVelocity`: at least 4 outgoing transactions of one sender
inside a 30-minute window. -/
def detectHighVelocity (transactions : List Transaction) : AList (List String) :=
  let sorted := sortByTime transactions
  let senderTxs := groupByKey (·.sender_id) sorted
  senderTxs.foldl (fun m e => hvLoop m e.1 e.2 e.2) []

/-! ### Structuring detection (`detectStructuring`) -/

/-- The reporting thresholds, in scan order. -/
def THRESHOLDS : List ℚ := [10000, 5000, 3000]

/-- The below-threshold margin. -/
def MARGIN : ℚ := 500

/-- The double-counting band count: one count per (transaction, threshold)
pair with the amount in `[threshold - MARGIN, threshold)`. -/
def structCount (txs : List Transaction) : ℕ :=
  txs.foldl
    (fun n t =>
      n + (THRESHOLDS.filter (fun th => th - MARGIN ≤ t.amount ∧ t.amount < th)).length)
    0

/-- `detectStructuring`: a sender with band count at least 3 is labeled. -/
def detectStructuring (transactions : List Transaction) : AList (List String) :=
  let senderTxs := groupByKey (·.sender_id) transactions
  senderTxs.foldl
    (fun m e => if 3 ≤ structCount e.2 then addLabel m e.1 "structuring" else m) []

/-! ### Round-trip detection (`detectRoundTrips`) -/

/-- 15 percent amount tolerance. -/
def TOLERANCE : ℚ := 15 / 100

/-- 7 days in milliseconds. -/
def RT_WINDOW_MS : ℤ := 7 * 24 * 60 * 60 * 1000

/-- The ordered-pair bucket key. -/
def pairKey (t : Transaction) : String := t.sender_id ++ "->" ++ t.receiver_id

/-- `detectRoundTrips`: all-pairs comparison of each (A,B) bucket against its
reverse bucket; matching pairs label both endpoints. -/
def detectRoundTrips (transactions : List Transaction) : AList (List String) :=
  let pairMap := groupByKey pairKey transactions
  pairMap.foldl
    (fun sus e =>
      let parts := splitArrowS e.1
      let a := parts.getD 0 ""
      let b := parts.getD 1 ""
      let reverseKey := b ++ "->" ++ a
      match getv pairMap reverseKey with
      | none => sus
      | some reverseTxs =>
        e.2.foldl
          (fun s1 t1 =>
            reverseTxs.foldl
              (fun s2 t2 =>
                let timeDiff := |t1.timestamp - t2.timestamp|
                let amountBal := min t1.amount t2.amount / max t1.amount t2.amount
                if timeDiff ≤ RT_WINDOW_MS ∧ 1 - TOLERANCE ≤ amountBal then
                  addLabel (addLabel s2 a "round_trip") b "round_trip"
                else s2)
              s1)
          sus)
    []

/-! ### Dormant-activation detection (`detectDormantActivation`) -/

/-- 48 hours in milliseconds. -/
def BURST_WINDOW : ℤ := 48 * 60 * 60 * 1000

/-- The burst-anchor loop for one account, stopping at the first qualifying
anchor. -/
def dormantLoop (sus : AList (List String)) (acc : String)
    (accSorted : List Transaction) (accSpan : ℤ) :
    List Transaction → AList (List String)
  | [] => sus
  | anchor :: rest =>
    let burstTxs := accSorted.filter (fun t =>
      anchor.timestamp ≤ t.timestamp ∧ t.timestamp ≤ anchor.timestamp + BURST_WINDOW)
    if (⌈(accSorted.length : ℚ) * (7 / 10)⌉ ≤ (burstTxs.length : ℤ)
        ∧ BURST_WINDOW * 3 < accSpan) then
      addLabel sus acc "dormant_activation"
    else dormantLoop sus acc accSorted accSpan rest

/-- `detectDormantActivation`: skipped entirely when the data spans fewer
than 7 days; otherwise accounts with at least 4 transactions whose activity
concentrates in one 48-hour burst are labeled. -/
def detectDormantActivation (transactions : List Transaction) : AList (List String) :=
  let sorted := sortByTime transactions
  match sorted with
  | [] => []
  | first :: _ =>
    let totalSpan := ((sorted.getLast?).getD first).timestamp - first.timestamp
    if totalSpan < 7 * 24 * 60 * 60 * 1000 then []
    else
      let accountTxs := sorted.foldl
        (fun m t =>
          let m1 := setv m t.sender_id (getD m t.sender_id [] ++ [t])
          setv m1 t.receiver_id (getD m1 t.receiver_id [] ++ [t]))
        ([] : AList (List Transaction))
      accountTxs.foldl
        (fun sus e =>
          if e.2.length < 4 then sus
          else
            let accSorted := sortByTime e.2
            match accSorted with
            | [] => sus
            | h :: _ =>
              let accSpan := ((accSorted.getLast?).getD h).timestamp - h.timestamp
              dormantLoop sus e.1 accSorted accSpan accSorted)
        []

/-! ### Suspicion scoring (`calcSuspicionScore`) -/

/-- `if (cond) score += k`, the accumulation step the scorer repeats. -/
def scoreStep (c : Prop) [Decidable c] (score k : ℚ) : ℚ :=
  if c then score + k else score

/-- The additive part of the score: per-label weights, multi-pattern
bonuses, the ring-count bonus and the flow-asymmetry bonus, before the two
suppression heuristics and the final clamp. -/
def preSuppressionScore (patterns : List String) (ringCount : ℕ)
    (txCount : ℕ) (totalSent totalReceived : ℚ) : ℚ :=
  let score : ℚ := 0
  let score := scoreStep ("cycle_length_3" ∈ patterns) score 30
  let score := scoreStep ("cycle_length_4" ∈ patterns) score 25
  let score := scoreStep ("cycle_length_5" ∈ patterns) score 20
  let score := scoreStep ("fan_in" ∈ patterns) score 20
  let score := scoreStep ("fan_out" ∈ patterns) score 20
  let score := scoreStep ("smurfing_source" ∈ patterns) score 10
  let score := scoreStep ("layered_shell" ∈ patterns) score 25
  let score := scoreStep ("low_activity_intermediary" ∈ patterns) score 15
  let score := scoreStep ("high_velocity" ∈ patterns) score 18
  let score := scoreStep ("structuring" ∈ patterns) score 22
  let score := scoreStep ("round_trip" ∈ patterns) score 20
  let score := scoreStep ("dormant_activation" ∈ patterns) score 15
  let patternCount := patterns.length
  let score := scoreStep (3 ≤ patternCount) score 10
  let score := scoreStep (5 ≤ patternCount) score 10
  let score := score + min ((ringCount : ℚ) * 5) 15
  if 0 < totalSent ∧ 0 < totalReceived then
    let flowBal := min totalSent totalReceived / max totalSent totalReceived
    scoreStep (6 / 10 < flowBal ∧ flowBal < 95 / 100 ∧ 3 ≤ txCount) score 8
  else score

/-- The running total after the merchant and payroll suppressions (the value
the source holds in `score` just before `return Math.min(score, 100)`). -/
def rawSuspicionScore (patterns : List String) (ringCount : ℕ)
    (txCount : ℕ) (totalSent totalReceived : ℚ) : ℚ :=
  let score := preSuppressionScore patterns ringCount txCount totalSent totalReceived
  let score :=
    if 20 < txCount then
      let bal := min totalSent totalReceived / max (max totalSent totalReceived) 1
      if 3 / 10 < bal then max (score - 15) 0 else score
    else score
  if totalReceived = 0 ∧ 10 < txCount then max (score - 20) 0 else score

/-- `calcSuspicionScore`: the running total clamped at 100.  The unused
`accountId` parameter of the source is kept. -/
def calcSuspicionScore (accountId : String) (patterns : List String) (ringCount : ℕ)
    (txCount : ℕ) (totalSent totalReceived : ℚ) : ℚ :=
  min (rawSuspicionScore patterns ringCount txCount totalSent totalReceived) 100

/-- `Math.round(x * 10) / 10`: round to one decimal place, halves up. -/
def round1 (x : ℚ) : ℚ := (⌊x * 10 + 1 / 2⌋ : ℚ) / 10

/-! ### The analysis pipeline (`analyzeTransactions`) -/

/-- Per-account total transaction count (sent plus received). -/
def txCountsOf (transactions : List Transaction) : AList ℕ :=
  transactions.foldl
    (fun m t =>
      let m1 := setv m t.sender_id (getD m t.sender_id 0 + 1)
      setv m1 t.receiver_id (getD m1 t.receiver_id 0 + 1))
    []

/-- Per-account total amount sent. -/
def sentAmounts (transactions : List Transaction) : AList ℚ :=
  transactions.foldl (fun m t => setv m t.sender_id (getD m t.sender_id 0 + t.amount)) []

/-- Per-account total amount received. -/
def recvAmounts (transactions : List Transaction) : AList ℚ :=
  transactions.foldl (fun m t => setv m t.receiver_id (getD m t.receiver_id 0 + t.amount)) []

/-- Every account id appearing in the data, in first-appearance order. -/
def allAccounts (transactions : List Transaction) : List String :=
  transactions.foldl (fun s t => insertSet (insertSet s t.sender_id) t.receiver_id) []

/-- `RING_${String(n).padStart(3, "0")}`. -/
def ringName (n : ℕ) : String :=
  let s := toString n
  "RING_" ++ String.mk (List.replicate (3 - s.length) '0' ++ s.data)

/-- The ring a detected cycle becomes. -/
def mkCycleRing (n : ℕ) (cycle : List String) : FraudRing :=
  ⟨ringName n, cycle, "cycle", min (70 + cycle.length * 5) 100⟩

/-- The ring a detected layered-shell chain becomes. -/
def mkShellRing (n : ℕ) (chain : List String) : FraudRing :=
  ⟨ringName n, chain, "layered_shell", min (75 + chain.length * 3) 100⟩

/-- The rings a list of member lists becomes, numbering on from counter `c`. -/
def ringsFromList (mk : ℕ → List String → FraudRing) (c : ℕ) :
    List (List String) → List FraudRing
  | [] => []
  | x :: xs => mk (c + 1) x :: ringsFromList mk (c + 1) xs

/-- The cycles the run detects. -/
def cyclesOf (transactions : List Transaction) : List (List String) :=
  detectCycles (buildAdjacencyList transactions) 5

/-- The layered-shell chains the run detects. -/
def shellsOf (transactions : List Transaction) : List (List String) :=
  detectLayeredShells (buildAdjacencyList transactions) (txCountsOf transactions)

/-- 1 when the smurfing ring is created (at least 2 flagged accounts). -/
def smurfRingCount (transactions : List Transaction) : ℕ :=
  if 2 ≤ (keysOf (detectSmurfing transactions)).length then 1 else 0

/-- The mutable state of the ring-aggregation phase: the rings created so
far, the per-account ring membership and pattern labels, and the global ring
counter. -/
structure RingState where
  fraudRings : List FraudRing
  accountRings : AList (List String)
  accountPatterns : AList (List String)
  ringCounter : ℕ

/-- The empty ring state. -/
def initialRingState : RingState := ⟨[], [], [], 0⟩

/-- Phase 1 step: one detected cycle becomes one ring. -/
def cyclePhase (st : RingState) (cycle : List String) : RingState :=
  let ringCounter := st.ringCounter + 1
  let ringId := ringName ringCounter
  let patternName := "cycle_length_" ++ toString cycle.length
  let fraudRings := st.fraudRings ++ [mkCycleRing ringCounter cycle]
  let p := cycle.foldl
    (fun (p : AList (List String) × AList (List String)) acc =>
      (setv p.1 acc (getD p.1 acc [] ++ [ringId]), addLabel p.2 acc patternName))
    (st.accountRings, st.accountPatterns)
  ⟨fraudRings, p.1, p.2, ringCounter⟩

/-- Phase 2: one smurfing ring holding every flagged account, created only
when at least two accounts were flagged. -/
def smurfPhase (st : RingState) (smurfingResults : AList (List String)) : RingState :=
  let smurfingAccounts := keysOf smurfingResults
  if 2 ≤ smurfingAccounts.length then
    let ringCounter := st.ringCounter + 1
    let ringId := ringName ringCounter
    let fraudRings := st.fraudRings ++ [⟨ringId, smurfingAccounts, "smurfing", 80⟩]
    let p := smurfingResults.foldl
      (fun (p : AList (List String) × AList (List String)) e =>
        (setv p.1 e.1 (getD p.1 e.1 [] ++ [ringId]),
         e.2.foldl (fun ap pat => addLabel ap e.1 pat) p.2))
      (st.accountRings, st.accountPatterns)
    ⟨fraudRings, p.1, p.2, ringCounter⟩
  else st

/-- Phase 3 step: one detected chain becomes one layered-shell ring. -/
def shellPhase (txCounts : AList ℕ) (st : RingState) (chain : List String) : RingState :=
  let ringCounter := st.ringCounter + 1
  let ringId := ringName ringCounter
  let fraudRings := st.fraudRings ++ [mkShellRing ringCounter chain]
  let p := chain.foldl
    (fun (p : AList (List String) × AList (List String)) acc =>
      let rings := setv p.1 acc (getD p.1 acc [] ++ [ringId])
      let pats := addLabel p.2 acc "layered_shell"
      let count := getD txCounts acc 0
      let pats :=
        if count ≤ 3 ∧ 0 < List.indexOf acc chain ∧ List.indexOf acc chain < chain.length - 1
        then addLabel pats acc "low_activity_intermediary"
        else pats
      (rings, pats))
    (st.accountRings, st.accountPatterns)
  ⟨fraudRings, p.1, p.2, ringCounter⟩

/-- Merge a detector's label map into the accumulated pattern map. -/
def mergePatterns (ap : AList (List String)) (results : AList (List String)) :
    AList (List String) :=
  results.foldl (fun m e => e.2.foldl (fun m' pat => addLabel m' e.1 pat) m) ap

/-- `if (!accountRings.has(acc)) accountRings.set(acc, [])`. -/
def ensureRingKey (ar : AList (List String)) (k : String) : AList (List String) :=
  if (getv ar k).isSome then ar else setv ar k []

/-- The ring state after the three ring-producing phases, in the fixed order
cycles, smurfing, shells. -/
def ringsAfterShells (transactions : List Transaction) : RingState :=
  let st1 := (cyclesOf transactions).foldl cyclePhase initialRingState
  let st2 := smurfPhase st1 (detectSmurfing transactions)
  (shellsOf transactions).foldl (shellPhase (txCountsOf transactions)) st2

/-- The accumulated pattern-label map after all seven detectors. -/
def finalPatterns (transactions : List Transaction) : AList (List String) :=
  let ap := (ringsAfterShells transactions).accountPatterns
  let ap := mergePatterns ap (detectHighVelocity transactions)
  let ap := mergePatterns ap (detectStructuring transactions)
  let ap := mergePatterns ap (detectRoundTrips transactions)
  mergePatterns ap (detectDormantActivation transactions)

/-- The per-account ring-membership map after the round-trip and dormant
passes registered their accounts. -/
def finalAccountRings (transactions : List Transaction) : AList (List String) :=
  let ar := (ringsAfterShells transactions).accountRings
  let ar := (detectRoundTrips transactions).foldl (fun m e => ensureRingKey m e.1) ar
  (detectDormantActivation transactions).foldl (fun m e => ensureRingKey m e.1) ar

/-- `new Set([...accountRings.keys(), ...accountPatterns.keys()])`. -/
def allFlaggedAccounts (transactions : List Transaction) : List String :=
  dedupF (keysOf (finalAccountRings transactions) ++ keysOf (finalPatterns transactions))

/-- The score the scorer assigns to one account of the run. -/
def scoreOf (transactions : List Transaction) (acc : String) : ℚ :=
  calcSuspicionScore acc
    (getD (finalPatterns transactions) acc [])
    (getD (finalAccountRings transactions) acc []).length
    (getD (txCountsOf transactions) acc 0)
    (getD (sentAmounts transactions) acc 0)
    (getD (recvAmounts transactions) acc 0)

/-- The output record the assembler builds for one retained account. -/
def mkSuspicious (transactions : List Transaction) (acc : String) : SuspiciousAccount :=
  ⟨acc, round1 (scoreOf transactions acc), getD (finalPatterns transactions) acc [],
    (getD (finalAccountRings transactions) acc []).headD "STANDALONE"⟩

/-- The suspicious-account list before sorting, in flagged-set order. -/
def suspiciousUnsorted (transactions : List Transaction) : List SuspiciousAccount :=
  (allFlaggedAccounts transactions).foldl
    (fun lst acc =>
      let rings := getD (finalAccountRings transactions) acc []
      let patterns := getD (finalPatterns transactions) acc []
      if patterns.length = 0 then lst
      else
        let score := scoreOf transactions acc
        if 15 ≤ score then
          lst ++ [⟨acc, round1 score, patterns, rings.headD "STANDALONE"⟩]
        else lst)
    []

/-- Descending-by-score order on output records, the comparator
`(a, b) => b.suspicion_score - a.suspicion_score`. -/
def byScoreDesc (a b : SuspiciousAccount) : Prop := b.suspicion_score ≤ a.suspicion_score

instance : DecidableRel byScoreDesc := fun a b => by unfold byScoreDesc; infer_instance

/-- `analyzeTransactions`: the full pipeline. -/
def analyzeTransactions (transactions : List Transaction) : AnalysisResult :=
  let suspiciousAccounts := List.insertionSort byScoreDesc (suspiciousUnsorted transactions)
  let fraudRings := (ringsAfterShells transactions).fraudRings
  ⟨suspiciousAccounts, fraudRings,
    ⟨(allAccounts transactions).length, suspiciousAccounts.length, fraudRings.length⟩⟩

/-! ### Concrete inputs used by the witnesses and testable-property checks -/

/-- The 3-node cycle graph A→B, B→C, C→A, in the three rotations of the
adjacency-insertion order (one per possible first transaction). -/
def cycleAdjRotations : List (AList (List String)) :=
  [[("A", ["B"]), ("B", ["C"]), ("C", ["A"])],
   [("B", ["C"]), ("C", ["A"]), ("A", ["B"])],
   [("C", ["A"]), ("A", ["B"]), ("B", ["C"])]]

/-- Transactions forming the 3-cycle A→B→C→A. -/
def exCycleTxs : List Transaction :=
  [⟨"c1", "A", "B", 1, 0⟩, ⟨"c2", "B", "C", 1, 1000⟩, ⟨"c3", "C", "A", 1, 2000⟩]

/-- Five distinct senders each paying receiver R inside one 72-hour span. -/
def exFanIn : List Transaction :=
  [⟨"f1", "S1", "R", 1, 0⟩, ⟨"f2", "S2", "R", 1, 1000⟩, ⟨"f3", "S3", "R", 1, 2000⟩,
   ⟨"f4", "S4", "R", 1, 3000⟩, ⟨"f5", "S5", "R", 1, 4000⟩]

/-- Four outgoing transactions of X inside a 25-minute span. -/
def exRapid : List Transaction :=
  [⟨"r1", "X", "Y", 1, 0⟩, ⟨"r2", "X", "Y", 1, 5 * 60000⟩,
   ⟨"r3", "X", "Y", 1, 15 * 60000⟩, ⟨"r4", "X", "Y", 1, 25 * 60000⟩]

/-- The same four transactions spread over 40 minutes. -/
def exSpread : List Transaction :=
  [⟨"r1", "X", "Y", 1, 0⟩, ⟨"r2", "X", "Y", 1, 13 * 60000⟩,
   ⟨"r3", "X", "Y", 1, 27 * 60000⟩, ⟨"r4", "X", "Y", 1, 40 * 60000⟩]

/-- The chain A→B→C→D whose interior nodes B and C each have 2 transactions. -/
def exShellTxs : List Transaction :=
  [⟨"s1", "A", "B", 1, 0⟩, ⟨"s2", "B", "C", 1, 1000⟩, ⟨"s3", "C", "D", 1, 2000⟩]

/-- Three just-below-threshold payments of one sender (a standalone
structuring account). -/
def exStructTxs : List Transaction :=
  [⟨"t1", "S", "Z", 9900, 0⟩, ⟨"t2", "S", "Z", 9900, 1⟩, ⟨"t3", "S", "Z", 9900, 2⟩]

/-- The properties every recorded shell chain has: a duplicate-free path of
4 to 6 nodes whose strictly interior nodes are low-activity. -/
def GoodChain (txCounts : AList ℕ) (x : List String) : Prop :=
  x.Nodup ∧ 4 ≤ x.length ∧ x.length ≤ 6
    ∧ ∀ n ∈ (x.drop 1).dropLast, getD txCounts n 0 ≤ 3

/-- The aggregation invariant: an account's accumulated ring-id list is
exactly the ids of the created rings it belongs to, in creation order. -/
def RingsInv (st : RingState) : Prop :=
  ∀ acc, getD st.accountRings acc []
    = (st.fraudRings.filter (fun r => acc ∈ r.member_accounts)).map (·.ring_id)

/-! ### A natural-number mirror of the scorer

Every constant the scorer adds or subtracts is an integer and the running
total starts at 0 and is floored at 0, so the score is always a natural
number.  The following definitions compute that natural number; the theorem
for the numerical claim proves the rational-valued scorer equal to it. -/

/-- The accumulation step in `ℕ`. -/
def scoreStepN (c : Prop) [Decidable c] (score k : ℕ) : ℕ :=
  if c then score + k else score

/-- `preSuppressionScore` computed in `ℕ` (the branch conditions are the same
conditions on the same rational inputs). -/
def preSuppressionScoreN (patterns : List String) (ringCount : ℕ)
    (txCount : ℕ) (totalSent totalReceived : ℚ) : ℕ :=
  let score : ℕ := 0
  let score := scoreStepN ("cycle_length_3" ∈ patterns) score 30
  let score := scoreStepN ("cycle_length_4" ∈ patterns) score 25
  let score := scoreStepN ("cycle_length_5" ∈ patterns) score 20
  let score := scoreStepN ("fan_in" ∈ patterns) score 20
  let score := scoreStepN ("fan_out" ∈ patterns) score 20
  let score := scoreStepN ("smurfing_source" ∈ patterns) score 10
  let score := scoreStepN ("layered_shell" ∈ patterns) score 25
  let score := scoreStepN ("low_activity_intermediary" ∈ patterns) score 15
  let score := scoreStepN ("high_velocity" ∈ patterns) score 18
  let score := scoreStepN ("structuring" ∈ patterns) score 22
  let score := scoreStepN ("round_trip" ∈ patterns) score 20
  let score := scoreStepN ("dormant_activation" ∈ patterns) score 15
  let patternCount := patterns.length
  let score := scoreStepN (3 ≤ patternCount) score 10
  let score := scoreStepN (5 ≤ patternCount) score 10
  let score := score + min (ringCount * 5) 15
  if 0 < totalSent ∧ 0 < totalReceived then
    let flowBal := min totalSent totalReceived / max totalSent totalReceived
    scoreStepN (6 / 10 < flowBal ∧ flowBal < 95 / 100 ∧ 3 ≤ txCount) score 8
  else score

/-- `rawSuspicionScore` computed in `ℕ` (truncated subtraction is the floor
at 0). -/
def rawSuspicionScoreN (patterns : List String) (ringCount : ℕ)
    (txCount : ℕ) (totalSent totalReceived : ℚ) : ℕ :=
  let score := preSuppressionScoreN patterns ringCount txCount totalSent totalReceived
  let score :=
    if 20 < txCount then
      let bal := min totalSent totalReceived / max (max totalSent totalReceived) 1
      if 3 / 10 < bal then score - 15 else score
    else score
  if totalReceived = 0 ∧ 10 < txCount then score - 20 else score

/-- `calcSuspicionScore` computed in `ℕ`. -/
def calcSuspicionScoreN (patterns : List String) (ringCount : ℕ)
    (txCount : ℕ) (totalSent totalReceived : ℚ) : ℕ :=
  min (rawSuspicionScoreN patterns ringCount txCount totalSent totalReceived) 100

/-! ### Basic lemmas about the map operations -/

theorem getv_setv_self {α : Type} (m : AList α) (k : String) (v : α) :
    getv (setv m k v) k = some v := by
  induction m with
  | nil => simp [getv, setv]
  | cons p m ih =>
    obtain ⟨a, w⟩ := p
    by_cases ha : a = k
    · simp [getv, setv, ha]
    · simp [getv, setv, ha, ih]

theorem getv_setv_ne {α : Type} {m : AList α} {k k' : String} {v : α} (h : k' ≠ k) :
    getv (setv m k v) k' = getv m k' := by
  induction m with
  | nil =>
    simp only [setv, getv]
    rw [if_neg (fun hh => h hh.symm)]
  | cons p m ih =>
    obtain ⟨a, w⟩ := p
    by_cases ha : a = k
    · subst ha
      simp only [setv, if_pos rfl, getv]
      rw [if_neg (fun hh => h hh.symm), if_neg (fun hh => h hh.symm)]
    · simp only [setv, if_neg ha, getv]
      by_cases ha' : a = k'
      · simp [ha']
      · simp [ha', ih]

theorem getD_setv_self {α : Type} (m : AList α) (k : String) (v d : α) :
    getD (setv m k v) k d = v := by simp [getD, getv_setv_self]

theorem getD_setv_ne {α : Type} {m : AList α} {k k' : String} {v d : α} (h : k' ≠ k) :
    getD (setv m k v) k' d = getD m k' d := by simp [getD, getv_setv_ne h]

theorem getv_mem {α : Type} {m : AList α} {k : String} {v : α}
    (h : getv m k = some v) : (k, v) ∈ m := by
  induction m with
  | nil => simp [getv] at h
  | cons p m ih =>
    obtain ⟨a, w⟩ := p
    by_cases ha : a = k
    · subst ha
      have hw : w = v := by simpa [getv] using h
      subst hw
      exact List.mem_cons_self _ _
    · simp only [getv, if_neg ha] at h
      exact List.mem_cons_of_mem _ (ih h)

theorem mem_keysOf_iff {α : Type} (m : AList α) (k : String) :
    k ∈ keysOf m ↔ (getv m k).isSome := by
  induction m with
  | nil => simp [keysOf, getv]
  | cons p m ih =>
    obtain ⟨a, w⟩ := p
    by_cases ha : a = k
    · simp [keysOf, getv, ha]
    · simpa [keysOf, getv, ha, Ne.symm ha] using ih

theorem keysOf_setv_of_isSome {α : Type} {m : AList α} {k : String} (v : α)
    (h : (getv m k).isSome) : keysOf (setv m k v) = keysOf m := by
  induction m with
  | nil => simp [getv] at h
  | cons p m ih =>
    obtain ⟨a, w⟩ := p
    by_cases ha : a = k
    · simp [setv, keysOf, ha]
    · simp only [getv, if_neg ha] at h
      simp only [setv, if_neg ha, keysOf, List.map_cons]
      rw [show List.map (fun x => x.1) (setv m k v) = keysOf (setv m k v) from rfl, ih h]
      rfl

theorem keysOf_setv_of_isNone {α : Type} {m : AList α} {k : String} (v : α)
    (h : getv m k = none) : keysOf (setv m k v) = keysOf m ++ [k] := by
  induction m with
  | nil => simp [setv, keysOf]
  | cons p m ih =>
    obtain ⟨a, w⟩ := p
    by_cases ha : a = k
    · simp [getv, ha] at h
    · simp only [getv, if_neg ha] at h
      simp only [setv, if_neg ha, keysOf, List.map_cons]
      rw [show List.map (fun x => x.1) (setv m k v) = keysOf (setv m k v) from rfl, ih h]
      rfl

theorem nodup_keysOf_setv {α : Type} (m : AList α) (k : String) (v : α)
    (h : (keysOf m).Nodup) : (keysOf (setv m k v)).Nodup := by
  rcases ho : getv m k with _ | w
  · rw [keysOf_setv_of_isNone v ho]
    refine List.Nodup.append h (by simp) ?_
    intro x hx hx'
    simp only [List.mem_singleton] at hx'
    subst hx'
    rw [mem_keysOf_iff, ho] at hx
    simp at hx
  · rw [keysOf_setv_of_isSome v (by simp [ho])]
    exact h

/-! ### Lemmas about `insertSet` / `dedupF` -/

theorem mem_insertSet {s : List String} {x y : String} :
    y ∈ insertSet s x ↔ y ∈ s ∨ y = x := by
  by_cases h : x ∈ s
  · simp only [insertSet, if_pos h]
    constructor
    · tauto
    · rintro (hy | rfl) <;> [exact hy; exact h]
  · simp [insertSet, if_neg h]

theorem nodup_insertSet {s : List String} (x : String) (h : s.Nodup) :
    (insertSet s x).Nodup := by
  by_cases hx : x ∈ s
  · simpa [insertSet, hx]
  · rw [insertSet, if_neg hx]
    refine List.Nodup.append h (by simp) ?_
    intro y hy hy'
    simp only [List.mem_singleton] at hy'
    subst hy'
    exact hx hy

theorem dedupF_spec (l : List String) :
    ∀ s : List String, (∀ y, y ∈ l.foldl insertSet s ↔ y ∈ s ∨ y ∈ l)
      ∧ (s.Nodup → (l.foldl insertSet s).Nodup) := by
  induction l with
  | nil => simp
  | cons a l ih =>
    intro s
    refine ⟨fun y => ?_, fun hs => ?_⟩
    · rw [List.foldl_cons, (ih (insertSet s a)).1 y, mem_insertSet]
      simp only [List.mem_cons]
      tauto
    · exact (ih (insertSet s a)).2 (nodup_insertSet a hs)

theorem mem_dedupF {l : List String} {y : String} : y ∈ dedupF l ↔ y ∈ l := by
  have h := (dedupF_spec l []).1 y
  simpa [dedupF] using h

theorem nodup_dedupF (l : List String) : (dedupF l).Nodup :=
  (dedupF_spec l []).2 (by simp)

theorem length_dedupF (l : List String) : (dedupF l).length = l.toFinset.card := by
  have h1 : (dedupF l).toFinset = l.toFinset := by
    ext x
    simp [List.mem_toFinset, mem_dedupF]
  calc (dedupF l).length = (dedupF l).toFinset.card :=
        (List.toFinset_card_of_nodup (nodup_dedupF l)).symm
    _ = l.toFinset.card := by rw [h1]

/-! ### Lemmas about `addLabel` -/

theorem getD_addLabel_self (m : AList (List String)) (k l : String) :
    getD (addLabel m k l) k []
      = (if l ∈ getD m k [] then getD m k [] else getD m k [] ++ [l]) := by
  simp [addLabel, getD_setv_self]

theorem getD_addLabel_ne (m : AList (List String)) {k k' : String} (l : String)
    (h : k' ≠ k) : getD (addLabel m k l) k' [] = getD m k' [] := by
  simp [addLabel, getD_setv_ne h]

theorem mem_addLabel_self (m : AList (List String)) (k l : String) :
    l ∈ getD (addLabel m k l) k [] := by
  rw [getD_addLabel_self]
  by_cases h : l ∈ getD m k [] <;> simp [h]

theorem mem_addLabel_of_mem {m : AList (List String)} {a p : String} (k l : String)
    (h : p ∈ getD m a []) : p ∈ getD (addLabel m k l) a [] := by
  by_cases hk : a = k
  · subst hk
    rw [getD_addLabel_self]
    by_cases hl : l ∈ getD m a [] <;> simp [hl, h]
  · rwa [getD_addLabel_ne _ _ hk]

theorem mem_addLabel_iff {m : AList (List String)} {a p : String} (k l : String) :
    p ∈ getD (addLabel m k l) a [] ↔ p ∈ getD m a [] ∨ (a = k ∧ p = l) := by
  by_cases hk : a = k
  · subst hk
    rw [getD_addLabel_self]
    by_cases hl : l ∈ getD m a [] <;> by_cases hp : p = l <;> simp [hl, hp]
  · rw [getD_addLabel_ne _ _ hk]
    simp [hk]

/-! ### Lemmas about `groupByKey` -/

theorem getD_groupByKey_aux (key : Transaction → String) (txs : List Transaction)
    (k : String) : ∀ m : AList (List Transaction),
    getD (txs.foldl (fun m t => setv m (key t) (getD m (key t) [] ++ [t])) m) k []
      = getD m k [] ++ txs.filter (fun t => key t = k) := by
  induction txs with
  | nil => simp
  | cons t txs ih =>
    intro m
    rw [List.foldl_cons, ih]
    by_cases hk : key t = k
    · rw [List.filter_cons_of_pos (by simp [hk]), hk, getD_setv_self]
      simp
    · rw [List.filter_cons_of_neg (by simp [hk]),
        getD_setv_ne (fun h => hk h.symm)]

theorem getD_groupByKey (key : Transaction → String) (txs : List Transaction)
    (k : String) :
    getD (groupByKey key txs) k [] = txs.filter (fun t => key t = k) := by
  simpa [groupByKey, getD, getv] using getD_groupByKey_aux key txs k []

theorem mem_keysOf_groupByKey_aux (key : Transaction → String)
    (txs : List Transaction) (k : String) : ∀ m : AList (List Transaction),
    (k ∈ keysOf (txs.foldl (fun m t => setv m (key t) (getD m (key t) [] ++ [t])) m)
      ↔ k ∈ keysOf m ∨ ∃ t ∈ txs, key t = k) := by
  induction txs with
  | nil => simp
  | cons t txs ih =>
    intro m
    rw [List.foldl_cons, ih]
    have hsplit : k ∈ keysOf (setv m (key t) (getD m (key t) [] ++ [t]))
        ↔ k ∈ keysOf m ∨ key t = k := by
      rcases ho : getv m (key t) with _ | w
      · rw [keysOf_setv_of_isNone _ ho]
        simp [eq_comm]
      · rw [keysOf_setv_of_isSome _ (by simp [ho])]
        constructor
        · exact Or.inl
        · rintro (h | h)
          · exact h
          · subst h
            exact (mem_keysOf_iff _ _).2 (by simp [ho])
    rw [hsplit]
    simp only [List.mem_cons]
    constructor
    · rintro ((h | h) | ⟨u, hu, hk⟩)
      · exact Or.inl h
      · exact Or.inr ⟨t, Or.inl rfl, h⟩
      · exact Or.inr ⟨u, Or.inr hu, hk⟩
    · rintro (h | ⟨u, (rfl | hu), hk⟩)
      · exact Or.inl (Or.inl h)
      · exact Or.inl (Or.inr hk)
      · exact Or.inr ⟨u, hu, hk⟩

theorem mem_keysOf_groupByKey (key : Transaction → String) (txs : List Transaction)
    (k : String) :
    k ∈ keysOf (groupByKey key txs) ↔ ∃ t ∈ txs, key t = k := by
  simpa [groupByKey, keysOf] using mem_keysOf_groupByKey_aux key txs k []

theorem nodup_keysOf_groupByKey (key : Transaction → String) (txs : List Transaction) :
    (keysOf (groupByKey key txs)).Nodup := by
  suffices h : ∀ m : AList (List Transaction), (keysOf m).Nodup →
      (keysOf (txs.foldl (fun m t => setv m (key t) (getD m (key t) [] ++ [t])) m)).Nodup by
    exact h [] (by simp [keysOf])
  induction txs with
  | nil => simpa using fun m h => h
  | cons t txs ih =>
    intro m hm
    rw [List.foldl_cons]
    exact ih _ (nodup_keysOf_setv m _ _ hm)

/-! ### The scorer is integer-valued -/

theorem natCast_sub_max (a b : ℕ) : ((a - b : ℕ) : ℚ) = max ((a : ℚ) - b) 0 := by
  rcases le_total a b with h | h
  · rw [Nat.sub_eq_zero_of_le h, max_eq_right (by simpa using (Nat.cast_le (α := ℚ)).2 h)]
    simp
  · rw [Nat.cast_sub h, max_eq_left (by simpa using (Nat.cast_le (α := ℚ)).2 h)]

theorem scoreStepN_cast (c : Prop) [Decidable c] (n k : ℕ) :
    ((scoreStepN c n k : ℕ) : ℚ) = scoreStep c (n : ℚ) (k : ℚ) := by
  by_cases h : c <;> simp [scoreStepN, scoreStep, h]

theorem preSuppressionScore_cast (patterns : List String) (ringCount txCount : ℕ)
    (sent recv : ℚ) :
    preSuppressionScore patterns ringCount txCount sent recv
      = (preSuppressionScoreN patterns ringCount txCount sent recv : ℚ) := by
  unfold preSuppressionScore preSuppressionScoreN
  rw [apply_ite ((Nat.cast : ℕ → ℚ))]
  push_cast [scoreStepN_cast]
  rfl

theorem rawSuspicionScore_cast (patterns : List String) (ringCount txCount : ℕ)
    (sent recv : ℚ) :
    rawSuspicionScore patterns ringCount txCount sent recv
      = (rawSuspicionScoreN patterns ringCount txCount sent recv : ℚ) := by
  unfold rawSuspicionScore rawSuspicionScoreN
  rw [preSuppressionScore_cast]
  push_cast [apply_ite ((Nat.cast : ℕ → ℚ)), natCast_sub_max]
  rfl

theorem calcSuspicionScore_cast (a : String) (patterns : List String)
    (ringCount txCount : ℕ) (sent recv : ℚ) :
    calcSuspicionScore a patterns ringCount txCount sent recv
      = (calcSuspicionScoreN patterns ringCount txCount sent recv : ℚ) := by
  unfold calcSuspicionScore calcSuspicionScoreN
  rw [rawSuspicionScore_cast]
  push_cast
  rfl

theorem round1_natCast (n : ℕ) : round1 (n : ℚ) = (n : ℚ) := by
  unfold round1
  have h : ((n : ℚ) * 10 + 1 / 2) = ((10 * n : ℤ) : ℚ) + 1 / 2 := by
    push_cast
    ring
  have h2 : ⌊((10 * n : ℤ) : ℚ) + 1 / 2⌋ = 10 * n := by
    rw [Int.floor_eq_iff]
    constructor
    · exact le_add_of_nonneg_right (by norm_num)
    · push_cast
      linarith
  rw [h, h2]
  push_cast
  ring

/-- The clamped score is at most 100. -/
theorem calcSuspicionScore_le_100 (a : String) (patterns : List String)
    (ringCount txCount : ℕ) (sent recv : ℚ) :
    calcSuspicionScore a patterns ringCount txCount sent recv ≤ 100 :=
  min_le_right _ _

/-! ### Claim C3: the two suppression heuristics -/

/-- C3: when the transaction count exceeds 20 and the sent/received balance
exceeds 0.3, the scorer subtracts 15 from the running total (floored at 0);
when the received total is exactly 0 and the transaction count exceeds 10,
it subtracts 20 (floored at 0).  Both facts are stated against
`preSuppressionScore`, the running total just before the suppressions. -/
theorem suppression_exact (accountId : String) (patterns : List String)
    (ringCount txCount : ℕ) (sent recv : ℚ) (hs : 0 ≤ sent) (hr : 0 ≤ recv) :
    (20 < txCount → 3 / 10 < min sent recv / max (max sent recv) 1 →
      calcSuspicionScore accountId patterns ringCount txCount sent recv
        = min (max (preSuppressionScore patterns ringCount txCount sent recv - 15) 0) 100)
    ∧ (recv = 0 → 10 < txCount →
      calcSuspicionScore accountId patterns ringCount txCount sent recv
        = min (max (preSuppressionScore patterns ringCount txCount sent recv - 20) 0) 100) := by
  constructor
  · intro h20 hbal
    have hrne : ¬(recv = 0 ∧ 10 < txCount) := by
      rintro ⟨rfl, -⟩
      rw [min_eq_right hs, zero_div] at hbal
      norm_num at hbal
    simp only [calcSuspicionScore, rawSuspicionScore]
    rw [if_pos h20, if_pos hbal, if_neg hrne]
  · intro hre h10
    have hbal0 : ¬ (3 / 10 < min sent recv / max (max sent recv) 1) := by
      rw [hre, min_eq_right hs, zero_div]
      norm_num
    simp only [calcSuspicionScore, rawSuspicionScore]
    rw [if_neg hbal0, ite_self, if_pos ⟨hre, h10⟩]

/-- C3 witness: an account with 25 transactions, 100 sent and 50 received
(balance 0.5) has its raw score reduced by 15; an account with 15
transactions, all outgoing, has its raw score reduced by 20. -/
theorem suppression_exact_witness :
    (calcSuspicionScore "M" ["structuring"] 0 25 100 50
       = min (max (preSuppressionScore ["structuring"] 0 25 100 50 - 15) 0) 100)
    ∧ (calcSuspicionScore "P" ["structuring"] 0 15 100 0
       = min (max (preSuppressionScore ["structuring"] 0 15 100 0 - 20) 0) 100) := by
  constructor
  · refine (suppression_exact "M" ["structuring"] 0 25 100 50
      (by norm_num) (by norm_num)).1 (by norm_num) ?_
    rw [show min (100 : ℚ) 50 = 50 by norm_num [min_def],
      show max (max (100 : ℚ) 50) 1 = 100 by norm_num [max_def]]
    norm_num
  · exact (suppression_exact "P" ["structuring"] 0 15 100 0
      (by norm_num) (by norm_num)).2 rfl (by norm_num)

/-! ### Claim C9: totality and the empty run -/

/-- C9: the pipeline is a total function (every input yields a result; there
is no exception channel in the embedding, every detector is a total Lean
function), and the empty transaction list yields the empty adjacency graph,
no suspicious accounts, no fraud rings and zero accounts analyzed. -/
theorem analyzeTransactions_total :
    (∀ transactions : List Transaction,
      ∃ r : AnalysisResult, analyzeTransactions transactions = r)
    ∧ buildAdjacencyList [] = []
    ∧ detectDormantActivation [] = []
    ∧ analyzeTransactions [] = ⟨[], [], ⟨0, 0, 0⟩⟩ :=
  ⟨fun _ => ⟨_, rfl⟩, rfl, rfl, by decide⟩

/-! ### More map lemmas and permutation bridges -/

theorem getv_eq_of_mem_nodup {α : Type} {m : AList α} {k : String} {v : α}
    (hnd : (keysOf m).Nodup) (h : (k, v) ∈ m) : getv m k = some v := by
  induction m with
  | nil => simp at h
  | cons p m ih =>
    obtain ⟨a, w⟩ := p
    rcases List.mem_cons.1 h with heq | htail
    · cases heq
      simp [getv]
    · have hk : k ∈ keysOf m := by
        rw [keysOf]
        exact List.mem_map.2 ⟨(k, v), htail, rfl⟩
      have hak : a ≠ k := by
        intro hak
        subst hak
        exact (List.nodup_cons.1 (by simpa [keysOf] using hnd)).1 hk
      rw [getv, if_neg hak]
      exact ih (List.nodup_cons.1 (by simpa [keysOf] using hnd)).2 htail

theorem getv_groupByKey_of_exists (key : Transaction → String)
    (txs : List Transaction) (k : String) (h : ∃ t ∈ txs, key t = k) :
    getv (groupByKey key txs) k = some (txs.filter fun t => key t = k) := by
  have hk := (mem_keysOf_groupByKey key txs k).2 h
  rw [mem_keysOf_iff] at hk
  rcases Option.isSome_iff_exists.1 hk with ⟨g, hg⟩
  have hD := getD_groupByKey key txs k
  rw [getD, hg] at hD
  simp only [Option.getD_some] at hD
  rw [hg, hD]

theorem sortByTime_perm (l : List Transaction) : (sortByTime l).Perm l :=
  List.perm_insertionSort _ _

/-! ### Claim C8: structuring is exactly the band count reaching 3 -/

theorem mem_structuring_fold (entries : AList (List Transaction)) (k : String) :
    ∀ init, "structuring" ∈ getD (entries.foldl
        (fun m e => if 3 ≤ structCount e.2 then addLabel m e.1 "structuring" else m)
        init) k []
      ↔ "structuring" ∈ getD init k [] ∨ ∃ g, (k, g) ∈ entries ∧ 3 ≤ structCount g := by
  induction entries with
  | nil => simp
  | cons e rest ih =>
    intro init
    obtain ⟨a, g0⟩ := e
    rw [List.foldl_cons, ih]
    by_cases hc : 3 ≤ structCount g0
    · rw [if_pos hc, mem_addLabel_iff]
      constructor
      · rintro ((h | ⟨rfl, -⟩) | ⟨g, hg, hcg⟩)
        · exact Or.inl h
        · exact Or.inr ⟨g0, List.mem_cons_self _ _, hc⟩
        · exact Or.inr ⟨g, List.mem_cons_of_mem _ hg, hcg⟩
      · rintro (h | ⟨g, hg, hcg⟩)
        · exact Or.inl (Or.inl h)
        · rcases List.mem_cons.1 hg with heq | htail
          · cases heq
            exact Or.inl (Or.inr ⟨rfl, rfl⟩)
          · exact Or.inr ⟨g, htail, hcg⟩
    · rw [if_neg hc]
      constructor
      · rintro (h | ⟨g, hg, hcg⟩)
        · exact Or.inl h
        · exact Or.inr ⟨g, List.mem_cons_of_mem _ hg, hcg⟩
      · rintro (h | ⟨g, hg, hcg⟩)
        · exact Or.inl h
        · rcases List.mem_cons.1 hg with heq | htail
          · cases heq
            exact absurd hcg hc
          · exact Or.inr ⟨g, htail, hcg⟩

/-- C8: a sender is labeled `structuring` exactly when the count of
(outgoing transaction, threshold) pairs with the amount in
`[threshold - 500, threshold)`, thresholds drawn from {10000, 5000, 3000},
reaches 3 — `structCount` is that double-counting tally. -/
theorem structuring_iff (transactions : List Transaction) (sender : String) :
    "structuring" ∈ getD (detectStructuring transactions) sender []
      ↔ 3 ≤ structCount (transactions.filter fun t => t.sender_id = sender) := by
  unfold detectStructuring
  rw [mem_structuring_fold]
  constructor
  · rintro (h | ⟨g, hg, hcg⟩)
    · simp [getD, getv] at h
    · have hv := getv_eq_of_mem_nodup (nodup_keysOf_groupByKey _ _) hg
      have hD := getD_groupByKey (·.sender_id) transactions sender
      rw [getD, hv] at hD
      simp only [Option.getD_some] at hD
      rwa [hD] at hcg
  · intro h
    have hne : (transactions.filter fun t => t.sender_id = sender) ≠ [] := by
      intro h0
      rw [h0] at h
      simp [structCount] at h
    obtain ⟨t, ht⟩ := List.exists_mem_of_ne_nil _ hne
    have hv := getv_groupByKey_of_exists (·.sender_id) transactions sender
      ⟨t, (List.mem_filter.1 ht).1, by simpa using (List.mem_filter.1 ht).2⟩
    exact Or.inr ⟨_, getv_mem hv, h⟩

/-! ### Claim C7: the high-velocity window rule -/

theorem mem_hvLoop (s : String) (txs : List Transaction) (a : String)
    (anchors : List Transaction) : ∀ sus,
    "high_velocity" ∈ getD (hvLoop sus s txs anchors) a []
      ↔ "high_velocity" ∈ getD sus a []
        ∨ (a = s ∧ ∃ anchor ∈ anchors, 4 ≤ (txs.filter fun t =>
            anchor.timestamp ≤ t.timestamp
              ∧ t.timestamp ≤ anchor.timestamp + RAPID_WINDOW_MS).length) := by
  induction anchors with
  | nil => simp [hvLoop]
  | cons anchor rest ih =>
    intro sus
    simp only [hvLoop]
    by_cases hc : 4 ≤ (txs.filter fun t =>
        anchor.timestamp ≤ t.timestamp
          ∧ t.timestamp ≤ anchor.timestamp + RAPID_WINDOW_MS).length
    · rw [if_pos hc, mem_addLabel_iff]
      constructor
      · rintro (h | ⟨rfl, -⟩)
        · exact Or.inl h
        · exact Or.inr ⟨rfl, anchor, List.mem_cons_self _ _, hc⟩
      · rintro (h | ⟨rfl, anchor', ha', hc'⟩)
        · exact Or.inl h
        · exact Or.inr ⟨rfl, rfl⟩
    · rw [if_neg hc, ih]
      constructor
      · rintro (h | ⟨rfl, anchor', ha', hc'⟩)
        · exact Or.inl h
        · exact Or.inr ⟨rfl, anchor', List.mem_cons_of_mem _ ha', hc'⟩
      · rintro (h | ⟨rfl, anchor', ha', hc'⟩)
        · exact Or.inl h
        · rcases List.mem_cons.1 ha' with heq | htail
          · subst heq
            exact absurd hc' hc
          · exact Or.inr ⟨rfl, anchor', htail, hc'⟩

theorem mem_velocity_fold (entries : AList (List Transaction)) (k : String) :
    ∀ init, "high_velocity" ∈ getD (entries.foldl
        (fun m e => hvLoop m e.1 e.2 e.2) init) k []
      ↔ "high_velocity" ∈ getD init k []
        ∨ ∃ g, (k, g) ∈ entries ∧ ∃ anchor ∈ g, 4 ≤ (g.filter fun t =>
            anchor.timestamp ≤ t.timestamp
              ∧ t.timestamp ≤ anchor.timestamp + RAPID_WINDOW_MS).length := by
  induction entries with
  | nil => simp
  | cons e rest ih =>
    intro init
    obtain ⟨s, g0⟩ := e
    rw [List.foldl_cons, ih, mem_hvLoop]
    constructor
    · rintro ((h | ⟨rfl, hwin⟩) | ⟨g, hg, hwin⟩)
      · exact Or.inl h
      · exact Or.inr ⟨g0, List.mem_cons_self _ _, hwin⟩
      · exact Or.inr ⟨g, List.mem_cons_of_mem _ hg, hwin⟩
    · rintro (h | ⟨g, hg, hwin⟩)
      · exact Or.inl (Or.inl h)
      · rcases List.mem_cons.1 hg with heq | htail
        · cases heq
          exact Or.inl (Or.inr ⟨rfl, hwin⟩)
        · exact Or.inr ⟨g, htail, hwin⟩

/-- C7: a sender is labeled `high_velocity` exactly when some of its
outgoing transactions anchors a 30-minute window holding at least 4 of its
outgoing transactions (the loop stops at the first such anchor, which does
not change the labeling); in particular the 25-minute four-burst `exRapid`
is labeled and the 40-minute spread `exSpread` is not. -/
theorem highVelocity_iff :
    (∀ (transactions : List Transaction) (sender : String),
      "high_velocity" ∈ getD (detectHighVelocity transactions) sender []
        ↔ ∃ anchor ∈ transactions.filter (fun t => t.sender_id = sender),
            4 ≤ ((transactions.filter fun t => t.sender_id = sender).filter fun t =>
              anchor.timestamp ≤ t.timestamp
                ∧ t.timestamp ≤ anchor.timestamp + RAPID_WINDOW_MS).length)
    ∧ getD (detectHighVelocity exRapid) "X" [] = ["high_velocity"]
    ∧ getD (detectHighVelocity exSpread) "X" [] = [] := by
  refine ⟨?_, by decide, by decide⟩
  intro txs sender
  unfold detectHighVelocity
  rw [mem_velocity_fold]
  have hperm : ((sortByTime txs).filter fun t => t.sender_id = sender).Perm
      (txs.filter fun t => t.sender_id = sender) :=
    (sortByTime_perm txs).filter _
  constructor
  · rintro (h | ⟨g, hg, anchor, ha, hc⟩)
    · simp [getD, getv] at h
    · have hv := getv_eq_of_mem_nodup (nodup_keysOf_groupByKey _ _) hg
      have hD := getD_groupByKey (·.sender_id) (sortByTime txs) sender
      rw [getD, hv] at hD
      simp only [Option.getD_some] at hD
      subst hD
      refine ⟨anchor, hperm.mem_iff.1 ha, ?_⟩
      rwa [(hperm.filter _).length_eq] at hc
  · rintro ⟨anchor, ha, hc⟩
    have hmem := (List.mem_filter.1 ha)
    have hv := getv_groupByKey_of_exists (·.sender_id) (sortByTime txs) sender
      ⟨anchor, (sortByTime_perm txs).mem_iff.2 hmem.1, by simpa using hmem.2⟩
    refine Or.inr ⟨_, getv_mem hv, anchor, hperm.mem_iff.2 ha, ?_⟩
    rwa [(hperm.filter _).length_eq]

/-! ### Claim C4: the smurfing fan-in rule -/

theorem mem_foldl_addLabel_mono (lab : String) (L : List String) :
    ∀ (sus : AList (List String)) {a p : String}, p ∈ getD sus a [] →
      p ∈ getD (L.foldl (fun m s => addLabel m s lab) sus) a [] := by
  induction L with
  | nil => exact fun sus _ _ h => h
  | cons x rest ih =>
    intro sus a p h
    rw [List.foldl_cons]
    exact ih _ (mem_addLabel_of_mem _ _ h)

theorem mem_foldl_addLabel_self (lab : String) (L : List String) :
    ∀ (sus : AList (List String)) {s : String}, s ∈ L →
      lab ∈ getD (L.foldl (fun m s' => addLabel m s' lab) sus) s [] := by
  induction L with
  | nil => simp
  | cons x rest ih =>
    intro sus s hs
    rw [List.foldl_cons]
    rcases List.mem_cons.1 hs with rfl | htail
    · exact mem_foldl_addLabel_mono lab rest _ (mem_addLabel_self _ _ _)
    · exact ih _ htail

theorem mem_fanInAnchor_mono {sus : AList (List String)} {r : String}
    {txs : List Transaction} {anchor : Transaction} {a p : String}
    (h : p ∈ getD sus a []) : p ∈ getD (fanInAnchor sus r txs anchor) a [] := by
  unfold fanInAnchor
  by_cases hc : 3 ≤ (dedupF ((txs.filter fun t =>
      anchor.timestamp ≤ t.timestamp
        ∧ t.timestamp ≤ anchor.timestamp + WINDOW_MS).map (·.sender_id))).length
  · rw [if_pos hc]
    exact mem_foldl_addLabel_mono _ _ _ (mem_addLabel_of_mem _ _ h)
  · rw [if_neg hc]
    exact h

theorem mem_fanOutAnchor_mono {sus : AList (List String)} {r : String}
    {txs : List Transaction} {anchor : Transaction} {a p : String}
    (h : p ∈ getD sus a []) : p ∈ getD (fanOutAnchor sus r txs anchor) a [] := by
  unfold fanOutAnchor
  by_cases hc : 3 ≤ (dedupF ((txs.filter fun t =>
      anchor.timestamp ≤ t.timestamp
        ∧ t.timestamp ≤ anchor.timestamp + WINDOW_MS).map (·.receiver_id))).length
  · rw [if_pos hc]
    exact mem_addLabel_of_mem _ _ h
  · rw [if_neg hc]
    exact h

theorem fanInAnchor_attain {sus : AList (List String)} {r : String}
    {txs : List Transaction} {anchor : Transaction}
    (hc : 3 ≤ (dedupF ((txs.filter fun t =>
      anchor.timestamp ≤ t.timestamp
        ∧ t.timestamp ≤ anchor.timestamp + WINDOW_MS).map (·.sender_id))).length) :
    "fan_in" ∈ getD (fanInAnchor sus r txs anchor) r []
    ∧ ∀ s ∈ (txs.filter fun t =>
        anchor.timestamp ≤ t.timestamp
          ∧ t.timestamp ≤ anchor.timestamp + WINDOW_MS).map (·.sender_id),
      "smurfing_source" ∈ getD (fanInAnchor sus r txs anchor) s [] := by
  unfold fanInAnchor
  rw [if_pos hc]
  constructor
  · exact mem_foldl_addLabel_mono _ _ _ (mem_addLabel_self _ _ _)
  · intro s hs
    exact mem_foldl_addLabel_self _ _ _ (mem_dedupF.2 hs)

theorem fanIn_inner_mono (r : String) (gtxs : List Transaction)
    (anchors : List Transaction) :
    ∀ (sus : AList (List String)) {a p : String}, p ∈ getD sus a [] →
      p ∈ getD (anchors.foldl (fun m' an => fanInAnchor m' r gtxs an) sus) a [] := by
  induction anchors with
  | nil => exact fun _ _ _ h => h
  | cons an rest ih =>
    intro sus a p h
    rw [List.foldl_cons]
    exact ih _ (mem_fanInAnchor_mono h)

theorem fanIn_inner_attain (r : String) (gtxs : List Transaction)
    (anchors : List Transaction) {anchor : Transaction} (ha : anchor ∈ anchors)
    (hc : 3 ≤ (dedupF ((gtxs.filter fun t =>
      anchor.timestamp ≤ t.timestamp
        ∧ t.timestamp ≤ anchor.timestamp + WINDOW_MS).map (·.sender_id))).length) :
    ∀ sus : AList (List String),
      "fan_in" ∈ getD (anchors.foldl (fun m' an => fanInAnchor m' r gtxs an) sus) r []
      ∧ ∀ s ∈ (gtxs.filter fun t =>
          anchor.timestamp ≤ t.timestamp
            ∧ t.timestamp ≤ anchor.timestamp + WINDOW_MS).map (·.sender_id),
        "smurfing_source"
          ∈ getD (anchors.foldl (fun m' an => fanInAnchor m' r gtxs an) sus) s [] := by
  induction anchors with
  | nil => simp at ha
  | cons an rest ih =>
    intro sus
    rcases List.mem_cons.1 ha with rfl | htail
    · rw [List.foldl_cons]
      refine ⟨fanIn_inner_mono r gtxs rest _ (fanInAnchor_attain hc).1, fun s hs => ?_⟩
      exact fanIn_inner_mono r gtxs rest _ ((fanInAnchor_attain hc).2 s hs)
    · rw [List.foldl_cons]
      exact ih htail _

theorem fanIn_outer_mono (entries : AList (List Transaction)) :
    ∀ (init : AList (List String)) {a p : String}, p ∈ getD init a [] →
      p ∈ getD (entries.foldl
        (fun m e => e.2.foldl (fun m' an => fanInAnchor m' e.1 e.2 an) m) init) a [] := by
  induction entries with
  | nil => exact fun _ _ _ h => h
  | cons e rest ih =>
    intro init a p h
    rw [List.foldl_cons]
    exact ih _ (fanIn_inner_mono _ _ _ _ h)

theorem fanIn_outer_attain (entries : AList (List Transaction))
    {r : String} {gtxs : List Transaction} {anchor : Transaction}
    (he : (r, gtxs) ∈ entries) (ha : anchor ∈ gtxs)
    (hc : 3 ≤ (dedupF ((gtxs.filter fun t =>
      anchor.timestamp ≤ t.timestamp
        ∧ t.timestamp ≤ anchor.timestamp + WINDOW_MS).map (·.sender_id))).length) :
    ∀ init : AList (List String),
      "fan_in" ∈ getD (entries.foldl
        (fun m e => e.2.foldl (fun m' an => fanInAnchor m' e.1 e.2 an) m) init) r []
      ∧ ∀ s ∈ (gtxs.filter fun t =>
          anchor.timestamp ≤ t.timestamp
            ∧ t.timestamp ≤ anchor.timestamp + WINDOW_MS).map (·.sender_id),
        "smurfing_source" ∈ getD (entries.foldl
          (fun m e => e.2.foldl (fun m' an => fanInAnchor m' e.1 e.2 an) m) init) s [] := by
  induction entries with
  | nil => simp at he
  | cons e rest ih =>
    intro init
    rcases List.mem_cons.1 he with rfl | htail
    · rw [List.foldl_cons]
      have h1 := fanIn_inner_attain r gtxs gtxs ha hc init
      exact ⟨fanIn_outer_mono rest _ h1.1,
        fun s hs => fanIn_outer_mono rest _ (h1.2 s hs)⟩
    · rw [List.foldl_cons]
      exact ih htail _

theorem fanOut_inner_mono (r : String) (gtxs : List Transaction)
    (anchors : List Transaction) :
    ∀ (sus : AList (List String)) {a p : String}, p ∈ getD sus a [] →
      p ∈ getD (anchors.foldl (fun m' an => fanOutAnchor m' r gtxs an) sus) a [] := by
  induction anchors with
  | nil => exact fun _ _ _ h => h
  | cons an rest ih =>
    intro sus a p h
    rw [List.foldl_cons]
    exact ih _ (mem_fanOutAnchor_mono h)

theorem fanOut_pass_mono (entries : AList (List Transaction)) :
    ∀ (init : AList (List String)) {a p : String}, p ∈ getD init a [] →
      p ∈ getD (entries.foldl
        (fun m e => e.2.foldl (fun m' an => fanOutAnchor m' e.1 e.2 an) m) init) a [] := by
  induction entries with
  | nil => exact fun _ _ _ h => h
  | cons e rest ih =>
    intro init a p h
    rw [List.foldl_cons]
    exact ih _ (fanOut_inner_mono _ _ _ _ h)

/-- C4: for every receiver and every received transaction taken as a 72-hour
window anchor, if the transactions to that receiver inside
`[anchor, anchor + 72h]` involve at least 3 distinct senders, the receiver is
labeled `fan_in` and every sender appearing in that window is labeled
`smurfing_source`.  The hypothesis quantifies over any anchor, so the check
runs over all anchors, not just the first. -/
theorem smurfing_fan_in (transactions : List Transaction) (receiver : String)
    (anchor : Transaction) (hmem : anchor ∈ transactions)
    (hrecv : anchor.receiver_id = receiver)
    (hdistinct : 3 ≤ (dedupF (((transactions.filter fun t =>
        t.receiver_id = receiver).filter fun t =>
        anchor.timestamp ≤ t.timestamp
          ∧ t.timestamp ≤ anchor.timestamp + WINDOW_MS).map (·.sender_id))).length) :
    "fan_in" ∈ getD (detectSmurfing transactions) receiver []
    ∧ ∀ s ∈ (((transactions.filter fun t => t.receiver_id = receiver).filter fun t =>
        anchor.timestamp ≤ t.timestamp
          ∧ t.timestamp ≤ anchor.timestamp + WINDOW_MS).map (·.sender_id)),
      "smurfing_source" ∈ getD (detectSmurfing transactions) s [] := by
  unfold detectSmurfing
  set gtxs := (sortByTime transactions).filter fun t => t.receiver_id = receiver with hg
  have hperm : gtxs.Perm (transactions.filter fun t => t.receiver_id = receiver) :=
    (sortByTime_perm transactions).filter _
  have hwperm : (gtxs.filter fun t =>
      anchor.timestamp ≤ t.timestamp
        ∧ t.timestamp ≤ anchor.timestamp + WINDOW_MS).Perm
      ((transactions.filter fun t => t.receiver_id = receiver).filter fun t =>
        anchor.timestamp ≤ t.timestamp
          ∧ t.timestamp ≤ anchor.timestamp + WINDOW_MS) :=
    hperm.filter _
  have hsperm := hwperm.map (·.sender_id)
  have he : (receiver, gtxs) ∈ groupByKey (·.receiver_id) (sortByTime transactions) := by
    refine getv_mem ?_
    rw [hg]
    exact getv_groupByKey_of_exists _ _ _
      ⟨anchor, (sortByTime_perm transactions).mem_iff.2 hmem, by simpa using hrecv⟩
  have ha : anchor ∈ gtxs :=
    hperm.mem_iff.2 (List.mem_filter.2 ⟨hmem, by simpa using hrecv⟩)
  have hc : 3 ≤ (dedupF ((gtxs.filter fun t =>
      anchor.timestamp ≤ t.timestamp
        ∧ t.timestamp ≤ anchor.timestamp + WINDOW_MS).map (·.sender_id))).length := by
    rw [length_dedupF, List.toFinset_eq_of_perm _ _ hsperm]
    rwa [length_dedupF] at hdistinct
  have h1 := fanIn_outer_attain _ he ha hc []
  refine ⟨fanOut_pass_mono _ _ h1.1, fun s hs => ?_⟩
  exact fanOut_pass_mono _ _ (h1.2 s (hsperm.mem_iff.2 hs))

/-- C4 witness: five distinct senders paying R inside one 72-hour span give
R `fan_in` and all five senders `smurfing_source`. -/
theorem smurfing_fan_in_witness :
    "fan_in" ∈ getD (detectSmurfing exFanIn) "R" []
    ∧ "smurfing_source" ∈ getD (detectSmurfing exFanIn) "S1" []
    ∧ "smurfing_source" ∈ getD (detectSmurfing exFanIn) "S2" []
    ∧ "smurfing_source" ∈ getD (detectSmurfing exFanIn) "S3" []
    ∧ "smurfing_source" ∈ getD (detectSmurfing exFanIn) "S4" []
    ∧ "smurfing_source" ∈ getD (detectSmurfing exFanIn) "S5" [] := by
  have h := smurfing_fan_in exFanIn "R" ⟨"f1", "S1", "R", 1, 0⟩
    (by decide) rfl (by decide)
  exact ⟨h.1, h.2 "S1" (by decide), h.2 "S2" (by decide), h.2 "S3" (by decide),
    h.2 "S4" (by decide), h.2 "S5" (by decide)⟩

/-! ### The lexicographic string order is a total antisymmetric preorder -/

theorem char_toNat_inj {x y : Char} (h : x.toNat = y.toNat) : x = y := by
  have h2 := congrArg Char.ofNat h
  rwa [Char.ofNat_toNat, Char.ofNat_toNat] at h2

theorem charsLe_total (a b : List Char) : charsLe a b = true ∨ charsLe b a = true := by
  induction a generalizing b with
  | nil => left; rfl
  | cons x xs ih =>
    cases b with
    | nil => right; rfl
    | cons y ys =>
      rcases lt_trichotomy x.toNat y.toNat with h | h | h
      · left
        simp [charsLe, h]
      · rcases ih ys with h2 | h2
        · left
          simp [charsLe, h, h2]
        · right
          simp [charsLe, h.symm, h2]
      · right
        simp [charsLe, h]

theorem charsLe_trans {a b c : List Char} (hab : charsLe a b = true)
    (hbc : charsLe b c = true) : charsLe a c = true := by
  induction a generalizing b c with
  | nil => rfl
  | cons x xs ih =>
    cases b with
    | nil => simp [charsLe] at hab
    | cons y ys =>
      cases c with
      | nil => simp [charsLe] at hbc
      | cons z zs =>
        simp only [charsLe, Bool.or_eq_true, Bool.and_eq_true, decide_eq_true_eq,
          beq_iff_eq] at hab hbc ⊢
        rcases hab with h1 | ⟨h1, h1'⟩ <;> rcases hbc with h2 | ⟨h2, h2'⟩
        · exact Or.inl (Nat.lt_trans h1 h2)
        · exact Or.inl (h2 ▸ h1)
        · exact Or.inl (h1 ▸ h2)
        · exact Or.inr ⟨h1.trans h2, ih h1' h2'⟩

theorem charsLe_antisymm {a b : List Char} (hab : charsLe a b = true)
    (hba : charsLe b a = true) : a = b := by
  induction a generalizing b with
  | nil =>
    cases b with
    | nil => rfl
    | cons y ys => simp [charsLe] at hba
  | cons x xs ih =>
    cases b with
    | nil => simp [charsLe] at hab
    | cons y ys =>
      simp only [charsLe, Bool.or_eq_true, Bool.and_eq_true, decide_eq_true_eq,
        beq_iff_eq] at hab hba
      rcases hab with h1 | ⟨h1, h1'⟩
      · rcases hba with h2 | ⟨h2, h2'⟩
        · exact absurd h2 (Nat.lt_asymm h1)
        · exact absurd h2 (Nat.ne_of_gt h1)
      · rcases hba with h2 | ⟨h2, h2'⟩
        · exact absurd h1 (Nat.ne_of_gt h2)
        · have hx : x = y := char_toNat_inj h1
          subst hx
          rw [ih h1' h2']

instance : IsTotal String strLe := ⟨fun a b => charsLe_total a.data b.data⟩

instance : IsTrans String strLe := ⟨fun _ _ _ => charsLe_trans⟩

instance : IsAntisymm String strLe :=
  ⟨fun a b hab hba => by
    cases a
    cases b
    exact congrArg String.mk (charsLe_antisymm hab hba)⟩

theorem sortStrings_sorted (l : List String) : (sortStrings l).Sorted strLe :=
  List.sorted_insertionSort strLe l

theorem sortStrings_perm (l : List String) : (sortStrings l).Perm l :=
  List.perm_insertionSort strLe l

theorem sortStrings_eq_of_perm {l₁ l₂ : List String} (h : l₁.Perm l₂) :
    sortStrings l₁ = sortStrings l₂ :=
  List.eq_of_perm_of_sorted ((sortStrings_perm l₁).trans (h.trans (sortStrings_perm l₂).symm))
    (sortStrings_sorted l₁) (sortStrings_sorted l₂)

theorem cycleKey_eq_of_perm {l₁ l₂ : List String} (h : l₁.Perm l₂) :
    cycleKey l₁ = cycleKey l₂ := by
  unfold cycleKey
  rw [sortStrings_eq_of_perm h]

/-! ### Claim C1: cycle deduplication by sorted member key -/

theorem cycleScan_spec (start : String) (maxL : ℕ) (path : List String)
    (hpath : path.Nodup) :
    ∀ (ns s : List String) (c : List (List String)),
      (∀ x ∈ c, cycleKey x ∈ s) → (c.map cycleKey).Nodup → (∀ x ∈ c, x.Nodup) →
      (∀ x ∈ (cycleScan start maxL path ns s c).2.1,
          cycleKey x ∈ (cycleScan start maxL path ns s c).1)
      ∧ ((cycleScan start maxL path ns s c).2.1.map cycleKey).Nodup
      ∧ (∀ x ∈ (cycleScan start maxL path ns s c).2.1, x.Nodup)
      ∧ (∀ f ∈ (cycleScan start maxL path ns s c).2.2, f.path.Nodup) := by
  intro ns
  induction ns with
  | nil =>
    intro s c h1 h2 h3
    exact ⟨h1, h2, h3, by simp [cycleScan]⟩
  | cons next rest ih =>
    intro s c h1 h2 h3
    by_cases hb1 : next = start ∧ 3 ≤ path.length ∧ path.length ≤ maxL
    · by_cases hb2 : cycleKey path ∈ s
      · simpa only [cycleScan, if_pos hb1, if_pos hb2] using ih s c h1 h2 h3
      · have h1' : ∀ x ∈ c ++ [path], cycleKey x ∈ s ++ [cycleKey path] := by
          intro x hx
          rcases List.mem_append.1 hx with hx | hx
          · exact List.mem_append.2 (Or.inl (h1 x hx))
          · simp only [List.mem_singleton] at hx
            subst hx
            simp
        have h2' : ((c ++ [path]).map cycleKey).Nodup := by
          rw [List.map_append]
          refine List.Nodup.append h2 (by simp) ?_
          intro k hk hk'
          simp only [List.map_cons, List.map_nil, List.mem_singleton] at hk'
          subst hk'
          rcases List.mem_map.1 hk with ⟨x, hx, hkx⟩
          exact hb2 (hkx ▸ h1 x hx)
        have h3' : ∀ x ∈ c ++ [path], x.Nodup := by
          intro x hx
          rcases List.mem_append.1 hx with hx | hx
          · exact h3 x hx
          · simp only [List.mem_singleton] at hx
            subst hx
            exact hpath
        simpa only [cycleScan, if_pos hb1, if_neg hb2] using
          ih (s ++ [cycleKey path]) (c ++ [path]) h1' h2' h3'
    · by_cases hb3 : next ∉ path ∧ path.length < maxL
      · have hr := ih s c h1 h2 h3
        simp only [cycleScan, if_neg hb1, if_pos hb3]
        refine ⟨hr.1, hr.2.1, hr.2.2.1, ?_⟩
        intro f hf
        rcases List.mem_cons.1 hf with rfl | hf'
        · simpa using List.Nodup.append hpath (by simp)
            (by
              intro y hy hy'
              simp only [List.mem_singleton] at hy'
              subst hy'
              exact hb3.1 hy)
        · exact hr.2.2.2 f hf'
      · simpa only [cycleScan, if_neg hb1, if_neg hb3] using ih s c h1 h2 h3

theorem cycleLoop_spec (adj : AList (List String)) (start : String) (maxL : ℕ) :
    ∀ (fuel : ℕ) (stack : List Frame) (s : List String) (c : List (List String)),
      (∀ f ∈ stack, f.path.Nodup) →
      (∀ x ∈ c, cycleKey x ∈ s) → (c.map cycleKey).Nodup → (∀ x ∈ c, x.Nodup) →
      (∀ x ∈ (cycleLoop adj start maxL stack fuel s c).2,
          cycleKey x ∈ (cycleLoop adj start maxL stack fuel s c).1)
      ∧ ((cycleLoop adj start maxL stack fuel s c).2.map cycleKey).Nodup
      ∧ (∀ x ∈ (cycleLoop adj start maxL stack fuel s c).2, x.Nodup) := by
  intro fuel
  induction fuel with
  | zero =>
    intro stack s c _ h1 h2 h3
    cases stack <;> exact ⟨h1, h2, h3⟩
  | succ fuel ih =>
    intro stack s c hstack h1 h2 h3
    cases stack with
    | nil => exact ⟨h1, h2, h3⟩
    | cons f rest =>
      have hf : f.path.Nodup := hstack f (List.mem_cons_self _ _)
      have hscan := cycleScan_spec start maxL f.path hf (getD adj f.node []) s c h1 h2 h3
      simp only [cycleLoop]
      refine ih _ _ _ ?_ hscan.1 hscan.2.1 hscan.2.2.1
      intro g hg
      rcases List.mem_append.1 hg with hg | hg
      · exact hscan.2.2.2 g (List.mem_reverse.1 hg)
      · exact hstack g (List.mem_cons_of_mem _ hg)

theorem detectCycles_spec (adj : AList (List String)) (maxL : ℕ) :
    (∀ x ∈ detectCycles adj maxL, cycleKey x ∈ ((keysOf adj).foldl
      (fun (acc : List String × List (List String)) start =>
        cycleLoop adj start maxL [⟨start, [start]⟩] (cycleFuel adj maxL) acc.1 acc.2)
      ([], [])).1)
    ∧ ((detectCycles adj maxL).map cycleKey).Nodup
    ∧ (∀ x ∈ detectCycles adj maxL, x.Nodup) := by
  unfold detectCycles
  suffices h : ∀ (nodes : List String) (s : List String) (c : List (List String)),
      (∀ x ∈ c, cycleKey x ∈ s) → (c.map cycleKey).Nodup → (∀ x ∈ c, x.Nodup) →
      (∀ x ∈ (nodes.foldl
          (fun (acc : List String × List (List String)) start =>
            cycleLoop adj start maxL [⟨start, [start]⟩] (cycleFuel adj maxL) acc.1 acc.2)
          (s, c)).2,
        cycleKey x ∈ (nodes.foldl
          (fun (acc : List String × List (List String)) start =>
            cycleLoop adj start maxL [⟨start, [start]⟩] (cycleFuel adj maxL) acc.1 acc.2)
          (s, c)).1)
      ∧ ((nodes.foldl
          (fun (acc : List String × List (List String)) start =>
            cycleLoop adj start maxL [⟨start, [start]⟩] (cycleFuel adj maxL) acc.1 acc.2)
          (s, c)).2.map cycleKey).Nodup
      ∧ (∀ x ∈ (nodes.foldl
          (fun (acc : List String × List (List String)) start =>
            cycleLoop adj start maxL [⟨start, [start]⟩] (cycleFuel adj maxL) acc.1 acc.2)
          (s, c)).2, x.Nodup) by
    exact h (keysOf adj) [] [] (by simp) (by simp) (by simp)
  intro nodes
  induction nodes with
  | nil => exact fun s c h1 h2 h3 => ⟨h1, h2, h3⟩
  | cons start rest ih =>
    intro s c h1 h2 h3
    rw [List.foldl_cons]
    have hstep := cycleLoop_spec adj start maxL (cycleFuel adj maxL)
      [⟨start, [start]⟩] s c (by simp) h1 h2 h3
    exact ih _ _ hstep.1 hstep.2.1 hstep.2.2

theorem nodup_map_pairwise {α β : Type} (f : α → β) :
    ∀ l : List α, (l.map f).Nodup → l.Pairwise (fun a b => f a ≠ f b) := by
  intro l
  induction l with
  | nil => exact fun _ => List.Pairwise.nil
  | cons a rest ih =>
    intro h
    simp only [List.map_cons, List.nodup_cons] at h
    exact List.Pairwise.cons
      (fun b hb heq => h.1 (heq ▸ List.mem_map_of_mem f hb)) (ih h.2)

/-- C1: the cycle detector never reports two cycles over the same account
set: every reported cycle is a duplicate-free path, the sorted-member dedup
keys of the reported cycles are pairwise distinct, and hence no two reported
cycles have the same set of member accounts.  On the 3-node cycle graph
A→B, B→C, C→A, exactly one cycle is reported and it has length 3, whichever
rotation of the adjacency order (hence whichever start node first reaches
the cycle) is used. -/
theorem detectCycles_dedup :
    (∀ (adj : AList (List String)) (maxLength : ℕ),
      (∀ c ∈ detectCycles adj maxLength, c.Nodup)
      ∧ ((detectCycles adj maxLength).map cycleKey).Nodup
      ∧ (detectCycles adj maxLength).Pairwise (fun c₁ c₂ => c₁.toFinset ≠ c₂.toFinset))
    ∧ (∀ adj ∈ cycleAdjRotations,
        (detectCycles adj 5).length = 1 ∧ ∀ c ∈ detectCycles adj 5, c.length = 3) := by
  constructor
  · intro adj maxLength
    obtain ⟨-, h2, h3⟩ := detectCycles_spec adj maxLength
    refine ⟨h3, h2, ?_⟩
    have hpw := nodup_map_pairwise cycleKey (detectCycles adj maxLength) h2
    refine hpw.imp_of_mem ?_
    intro c₁ c₂ hm₁ hm₂ hne hset
    exact hne (cycleKey_eq_of_perm
      (List.perm_of_nodup_nodup_toFinset_eq (h3 c₁ hm₁) (h3 c₂ hm₂) hset))
  · intro adj hadj
    fin_cases hadj <;> exact ⟨by decide, by decide⟩

/-! ### Claim C6 groundwork: the shell search invariants -/

theorem shellRecord_spec (txCounts : AList ℕ) (path : List String)
    (hpath : path.Nodup) (hlen : path.length ≤ 6) (s : List String)
    (c : List (List String))
    (h1 : ∀ x ∈ c, pathKey x ∈ s) (h2 : (c.map pathKey).Nodup)
    (h3 : ∀ x ∈ c, GoodChain txCounts x) :
    (∀ x ∈ (shellRecord txCounts path s c).2,
        pathKey x ∈ (shellRecord txCounts path s c).1)
    ∧ ((shellRecord txCounts path s c).2.map pathKey).Nodup
    ∧ (∀ x ∈ (shellRecord txCounts path s c).2, GoodChain txCounts x) := by
  unfold shellRecord
  by_cases hb1 : 4 ≤ path.length
  · by_cases hb2 : ((path.drop 1).dropLast).all (fun n => getD txCounts n 0 ≤ 3)
    · by_cases hb3 : pathKey path ∈ s
      · simpa only [if_pos hb1, if_pos hb2, if_pos hb3] using ⟨h1, h2, h3⟩
      · simp only [if_pos hb1, if_pos hb2, if_neg hb3]
        refine ⟨?_, ?_, ?_⟩
        · intro x hx
          rcases List.mem_append.1 hx with hx | hx
          · exact List.mem_append.2 (Or.inl (h1 x hx))
          · simp only [List.mem_singleton] at hx
            subst hx
            simp
        · rw [List.map_append]
          refine List.Nodup.append h2 (by simp) ?_
          intro k hk hk'
          simp only [List.map_cons, List.map_nil, List.mem_singleton] at hk'
          subst hk'
          rcases List.mem_map.1 hk with ⟨x, hx, hkx⟩
          exact hb3 (hkx ▸ h1 x hx)
        · intro x hx
          rcases List.mem_append.1 hx with hx | hx
          · exact h3 x hx
          · simp only [List.mem_singleton] at hx
            subst hx
            exact ⟨hpath, hb1, hlen, by simpa using hb2⟩
    · simpa only [if_pos hb1, if_neg hb2] using ⟨h1, h2, h3⟩
  · simpa only [if_neg hb1] using ⟨h1, h2, h3⟩

theorem shellPushes_spec (adj : AList (List String)) (f : Frame)
    (hpath : f.path.Nodup) (hlen : f.path.length ≤ 6) :
    ∀ g ∈ shellPushes adj f, g.path.Nodup ∧ g.path.length ≤ 6 := by
  intro g hg
  unfold shellPushes at hg
  by_cases hb : f.path.length < 6
  · rw [if_pos hb] at hg
    rcases List.mem_map.1 hg with ⟨next, hnext, hgf⟩
    subst hgf
    have hnp := (List.mem_filter.1 hnext).2
    simp only [decide_eq_true_eq] at hnp
    constructor
    · refine List.Nodup.append hpath (by simp) ?_
      intro y hy hy'
      simp only [List.mem_singleton] at hy'
      subst hy'
      exact hnp hy
    · simp only [List.length_append, List.length_singleton]
      omega
  · rw [if_neg hb] at hg
    simp at hg

theorem shellLoop_spec (adj : AList (List String)) (txCounts : AList ℕ) :
    ∀ (fuel : ℕ) (stack : List Frame) (s : List String) (c : List (List String)),
      (∀ f ∈ stack, f.path.Nodup ∧ f.path.length ≤ 6) →
      (∀ x ∈ c, pathKey x ∈ s) → (c.map pathKey).Nodup →
      (∀ x ∈ c, GoodChain txCounts x) →
      (∀ x ∈ (shellLoop adj txCounts stack fuel s c).2,
          pathKey x ∈ (shellLoop adj txCounts stack fuel s c).1)
      ∧ ((shellLoop adj txCounts stack fuel s c).2.map pathKey).Nodup
      ∧ (∀ x ∈ (shellLoop adj txCounts stack fuel s c).2, GoodChain txCounts x) := by
  intro fuel
  induction fuel with
  | zero =>
    intro stack s c _ h1 h2 h3
    cases stack <;> exact ⟨h1, h2, h3⟩
  | succ fuel ih =>
    intro stack s c hstack h1 h2 h3
    cases stack with
    | nil => exact ⟨h1, h2, h3⟩
    | cons f rest =>
      have hf := hstack f (List.mem_cons_self _ _)
      have hrec := shellRecord_spec txCounts f.path hf.1 hf.2 s c h1 h2 h3
      simp only [shellLoop]
      refine ih _ _ _ ?_ hrec.1 hrec.2.1 hrec.2.2
      intro g hg
      rcases List.mem_append.1 hg with hg | hg
      · exact shellPushes_spec adj f hf.1 hf.2 g (List.mem_reverse.1 hg)
      · exact hstack g (List.mem_cons_of_mem _ hg)

theorem detectLayeredShells_spec (adj : AList (List String)) (txCounts : AList ℕ) :
    ((detectLayeredShells adj txCounts).map pathKey).Nodup
    ∧ ∀ x ∈ detectLayeredShells adj txCounts, GoodChain txCounts x := by
  unfold detectLayeredShells
  suffices h : ∀ (nodes : List String) (s : List String) (c : List (List String)),
      (∀ x ∈ c, pathKey x ∈ s) → (c.map pathKey).Nodup →
      (∀ x ∈ c, GoodChain txCounts x) →
      (∀ x ∈ (nodes.foldl
          (fun (acc : List String × List (List String)) start =>
            shellLoop adj txCounts [⟨start, [start]⟩] (shellFuel adj) acc.1 acc.2)
          (s, c)).2,
        pathKey x ∈ (nodes.foldl
          (fun (acc : List String × List (List String)) start =>
            shellLoop adj txCounts [⟨start, [start]⟩] (shellFuel adj) acc.1 acc.2)
          (s, c)).1)
      ∧ ((nodes.foldl
          (fun (acc : List String × List (List String)) start =>
            shellLoop adj txCounts [⟨start, [start]⟩] (shellFuel adj) acc.1 acc.2)
          (s, c)).2.map pathKey).Nodup
      ∧ (∀ x ∈ (nodes.foldl
          (fun (acc : List String × List (List String)) start =>
            shellLoop adj txCounts [⟨start, [start]⟩] (shellFuel adj) acc.1 acc.2)
          (s, c)).2, GoodChain txCounts x) by
    obtain ⟨-, h2, h3⟩ := h (keysOf adj) [] [] (by simp) (by simp) (by simp)
    exact ⟨h2, h3⟩
  intro nodes
  induction nodes with
  | nil => exact fun s c h1 h2 h3 => ⟨h1, h2, h3⟩
  | cons start rest ih =>
    intro s c h1 h2 h3
    rw [List.foldl_cons]
    have hstep := shellLoop_spec adj txCounts (shellFuel adj)
      [⟨start, [start]⟩] s c (by simp) h1 h2 h3
    exact ih _ _ hstep.1 hstep.2.1 hstep.2.2

theorem shellsOf_nodup (transactions : List Transaction) :
    (shellsOf transactions).Nodup := by
  have h := (detectLayeredShells_spec (buildAdjacencyList transactions)
    (txCountsOf transactions)).1
  have := nodup_map_pairwise pathKey _ h
  exact List.Pairwise.imp (fun hne heq => hne (by rw [heq])) this

/-! ### The phase folds: rings are appended with sequential ids -/

theorem foldl_cyclePhase_rings (L : List (List String)) :
    ∀ st : RingState,
      ((L.foldl cyclePhase st).fraudRings
        = st.fraudRings ++ ringsFromList mkCycleRing st.ringCounter L)
      ∧ (L.foldl cyclePhase st).ringCounter = st.ringCounter + L.length := by
  induction L with
  | nil => exact fun st => ⟨by simp [ringsFromList], rfl⟩
  | cons x xs ih =>
    intro st
    rw [List.foldl_cons]
    have hstep1 : (cyclePhase st x).fraudRings
        = st.fraudRings ++ [mkCycleRing (st.ringCounter + 1) x] := rfl
    have hstep2 : (cyclePhase st x).ringCounter = st.ringCounter + 1 := rfl
    obtain ⟨ha, hb⟩ := ih (cyclePhase st x)
    constructor
    · rw [ha, hstep1, hstep2, ringsFromList, List.append_assoc]
      rfl
    · rw [hb, hstep2, List.length_cons]
      omega

theorem foldl_shellPhase_rings (txCounts : AList ℕ) (L : List (List String)) :
    ∀ st : RingState,
      ((L.foldl (shellPhase txCounts) st).fraudRings
        = st.fraudRings ++ ringsFromList mkShellRing st.ringCounter L)
      ∧ (L.foldl (shellPhase txCounts) st).ringCounter = st.ringCounter + L.length := by
  induction L with
  | nil => exact fun st => ⟨by simp [ringsFromList], rfl⟩
  | cons x xs ih =>
    intro st
    rw [List.foldl_cons]
    have hstep1 : (shellPhase txCounts st x).fraudRings
        = st.fraudRings ++ [mkShellRing (st.ringCounter + 1) x] := rfl
    have hstep2 : (shellPhase txCounts st x).ringCounter = st.ringCounter + 1 := rfl
    obtain ⟨ha, hb⟩ := ih (shellPhase txCounts st x)
    constructor
    · rw [ha, hstep1, hstep2, ringsFromList, List.append_assoc]
      rfl
    · rw [hb, hstep2, List.length_cons]
      omega

theorem smurfPhase_rings (st : RingState) (results : AList (List String)) :
    ((smurfPhase st results).fraudRings
      = st.fraudRings ++ (if 2 ≤ (keysOf results).length then
          [⟨ringName (st.ringCounter + 1), keysOf results, "smurfing", 80⟩] else []))
    ∧ (smurfPhase st results).ringCounter
      = st.ringCounter + (if 2 ≤ (keysOf results).length then 1 else 0) := by
  unfold smurfPhase
  by_cases hb : 2 ≤ (keysOf results).length
  · simp only [if_pos hb]
    exact ⟨trivial, trivial⟩
  · simp only [if_neg hb]
    exact ⟨by simp, by simp⟩

/-- The full decomposition of the created rings. -/
theorem fraudRings_decomposition (transactions : List Transaction) :
    (ringsAfterShells transactions).fraudRings
      = ringsFromList mkCycleRing 0 (cyclesOf transactions)
        ++ (if 2 ≤ (keysOf (detectSmurfing transactions)).length then
            [⟨ringName ((cyclesOf transactions).length + 1),
              keysOf (detectSmurfing transactions), "smurfing", 80⟩] else [])
        ++ ringsFromList mkShellRing
            ((cyclesOf transactions).length + smurfRingCount transactions)
            (shellsOf transactions) := by
  unfold ringsAfterShells
  have h1 := foldl_cyclePhase_rings (cyclesOf transactions) initialRingState
  have h2 := smurfPhase_rings ((cyclesOf transactions).foldl cyclePhase initialRingState)
    (detectSmurfing transactions)
  have h3 := foldl_shellPhase_rings (txCountsOf transactions) (shellsOf transactions)
    (smurfPhase ((cyclesOf transactions).foldl cyclePhase initialRingState)
      (detectSmurfing transactions))
  rw [h3.1, h2.1, h1.1, h2.2, h1.2]
  simp only [initialRingState, smurfRingCount]
  rw [List.append_assoc]
  simp

/-! ### The per-account effect of each ring-creation fold -/

theorem mem_foldl_addLabel_pats_mono (k : String) (pats : List String) :
    ∀ (ap : AList (List String)) {a q : String}, q ∈ getD ap a [] →
      q ∈ getD (pats.foldl (fun m pat => addLabel m k pat) ap) a [] := by
  induction pats with
  | nil => exact fun _ _ _ h => h
  | cons pat rest ih =>
    intro ap a q h
    rw [List.foldl_cons]
    exact ih _ (mem_addLabel_of_mem _ _ h)

theorem cycleFold_spec (rid pname : String) :
    ∀ (L : List String), L.Nodup → ∀ (ar ap : AList (List String)),
      (∀ acc, getD (L.foldl
          (fun (p : AList (List String) × AList (List String)) a =>
            (setv p.1 a (getD p.1 a [] ++ [rid]), addLabel p.2 a pname)) (ar, ap)).1 acc []
        = getD ar acc [] ++ (if acc ∈ L then [rid] else []))
      ∧ (∀ acc q, q ∈ getD ap acc [] →
          q ∈ getD (L.foldl
            (fun (p : AList (List String) × AList (List String)) a =>
              (setv p.1 a (getD p.1 a [] ++ [rid]), addLabel p.2 a pname)) (ar, ap)).2 acc [])
      ∧ (∀ acc ∈ L, pname ∈ getD (L.foldl
          (fun (p : AList (List String) × AList (List String)) a =>
            (setv p.1 a (getD p.1 a [] ++ [rid]), addLabel p.2 a pname)) (ar, ap)).2 acc []) := by
  intro L
  induction L with
  | nil =>
    intro _ ar ap
    refine ⟨fun acc => by simp, fun acc q h => h, by simp⟩
  | cons x rest ih =>
    intro hnd ar ap
    have hx : x ∉ rest := (List.nodup_cons.1 hnd).1
    have hrest := (List.nodup_cons.1 hnd).2
    rw [List.foldl_cons]
    obtain ⟨ih1, ih2, ih3⟩ := ih hrest (setv ar x (getD ar x [] ++ [rid])) (addLabel ap x pname)
    refine ⟨fun acc => ?_, fun acc q h => ih2 acc q (mem_addLabel_of_mem _ _ h), ?_⟩
    · rw [ih1 acc]
      by_cases hax : acc = x
      · subst hax
        rw [getD_setv_self, if_neg (by intro h; exact hx h), if_pos (List.mem_cons_self _ _)]
        simp
      · rw [getD_setv_ne (fun h => hax h)]
        by_cases hm : acc ∈ rest
        · rw [if_pos hm, if_pos (List.mem_cons_of_mem _ hm)]
        · rw [if_neg hm, if_neg (by simp [List.mem_cons, hax, hm])]
    · intro acc hacc
      rcases List.mem_cons.1 hacc with rfl | htail
      · exact ih2 acc pname (mem_addLabel_self _ _ _)
      · exact ih3 acc htail

theorem smurfFold_spec (rid : String) :
    ∀ (L : AList (List String)), (keysOf L).Nodup → ∀ (ar ap : AList (List String)),
      (∀ acc, getD (L.foldl
          (fun (p : AList (List String) × AList (List String)) e =>
            (setv p.1 e.1 (getD p.1 e.1 [] ++ [rid]),
             e.2.foldl (fun ap' pat => addLabel ap' e.1 pat) p.2)) (ar, ap)).1 acc []
        = getD ar acc [] ++ (if acc ∈ keysOf L then [rid] else []))
      ∧ (∀ acc q, q ∈ getD ap acc [] →
          q ∈ getD (L.foldl
            (fun (p : AList (List String) × AList (List String)) e =>
              (setv p.1 e.1 (getD p.1 e.1 [] ++ [rid]),
               e.2.foldl (fun ap' pat => addLabel ap' e.1 pat) p.2)) (ar, ap)).2 acc []) := by
  intro L
  induction L with
  | nil =>
    intro _ ar ap
    exact ⟨fun acc => by simp [keysOf], fun acc q h => h⟩
  | cons e rest ih =>
    intro hnd ar ap
    have hnd' : (e.1 :: keysOf rest).Nodup := hnd
    have hx : e.1 ∉ keysOf rest := (List.nodup_cons.1 hnd').1
    have hrest : (keysOf rest).Nodup := (List.nodup_cons.1 hnd').2
    rw [List.foldl_cons]
    obtain ⟨ih1, ih2⟩ := ih hrest (setv ar e.1 (getD ar e.1 [] ++ [rid]))
      (e.2.foldl (fun ap' pat => addLabel ap' e.1 pat) ap)
    refine ⟨fun acc => ?_,
      fun acc q h => ih2 acc q (mem_foldl_addLabel_pats_mono _ _ _ h)⟩
    rw [ih1 acc]
    by_cases hax : acc = e.1
    · subst hax
      rw [getD_setv_self, if_neg (by intro h; exact hx h),
        if_pos (by simp [keysOf])]
      simp
    · rw [getD_setv_ne (fun h => hax h)]
      by_cases hm : acc ∈ keysOf rest
      · rw [if_pos hm, if_pos (show acc ∈ keysOf (e :: rest) from
          List.mem_cons_of_mem _ hm)]
      · rw [if_neg hm, if_neg (show acc ∉ keysOf (e :: rest) by
          intro hh
          rcases List.mem_cons.1 (show acc ∈ e.1 :: keysOf rest from hh) with h | h
          · exact hax h
          · exact hm h)]

theorem shellFold_spec (rid : String) (tc : AList ℕ) (chain : List String) :
    ∀ (L : List String), L.Nodup → ∀ (ar ap : AList (List String)),
      (∀ acc, getD (L.foldl
          (fun (p : AList (List String) × AList (List String)) acc =>
            let rings := setv p.1 acc (getD p.1 acc [] ++ [rid])
            let pats := addLabel p.2 acc "layered_shell"
            let count := getD tc acc 0
            let pats :=
              if count ≤ 3 ∧ 0 < List.indexOf acc chain
                  ∧ List.indexOf acc chain < chain.length - 1
              then addLabel pats acc "low_activity_intermediary"
              else pats
            (rings, pats)) (ar, ap)).1 acc []
        = getD ar acc [] ++ (if acc ∈ L then [rid] else []))
      ∧ (∀ acc q, q ∈ getD ap acc [] →
          q ∈ getD (L.foldl
            (fun (p : AList (List String) × AList (List String)) acc =>
              let rings := setv p.1 acc (getD p.1 acc [] ++ [rid])
              let pats := addLabel p.2 acc "layered_shell"
              let count := getD tc acc 0
              let pats :=
                if count ≤ 3 ∧ 0 < List.indexOf acc chain
                    ∧ List.indexOf acc chain < chain.length - 1
                then addLabel pats acc "low_activity_intermediary"
                else pats
              (rings, pats)) (ar, ap)).2 acc [])
      ∧ (∀ acc ∈ L, "layered_shell" ∈ getD (L.foldl
          (fun (p : AList (List String) × AList (List String)) acc =>
            let rings := setv p.1 acc (getD p.1 acc [] ++ [rid])
            let pats := addLabel p.2 acc "layered_shell"
            let count := getD tc acc 0
            let pats :=
              if count ≤ 3 ∧ 0 < List.indexOf acc chain
                  ∧ List.indexOf acc chain < chain.length - 1
              then addLabel pats acc "low_activity_intermediary"
              else pats
            (rings, pats)) (ar, ap)).2 acc [])
      ∧ (∀ acc ∈ L, (getD tc acc 0 ≤ 3 ∧ 0 < List.indexOf acc chain
            ∧ List.indexOf acc chain < chain.length - 1) →
          "low_activity_intermediary" ∈ getD (L.foldl
            (fun (p : AList (List String) × AList (List String)) acc =>
              let rings := setv p.1 acc (getD p.1 acc [] ++ [rid])
              let pats := addLabel p.2 acc "layered_shell"
              let count := getD tc acc 0
              let pats :=
                if count ≤ 3 ∧ 0 < List.indexOf acc chain
                    ∧ List.indexOf acc chain < chain.length - 1
                then addLabel pats acc "low_activity_intermediary"
                else pats
              (rings, pats)) (ar, ap)).2 acc []) := by
  intro L
  induction L with
  | nil =>
    intro _ ar ap
    exact ⟨fun acc => by simp, fun acc q h => h, by simp, by simp⟩
  | cons x rest ih =>
    intro hnd ar ap
    have hx : x ∉ rest := (List.nodup_cons.1 hnd).1
    have hrest := (List.nodup_cons.1 hnd).2
    rw [List.foldl_cons]
    have hstep2 : ∀ (ap' : AList (List String)) {a q : String}, q ∈ getD ap' a [] →
        q ∈ getD (if getD tc x 0 ≤ 3 ∧ 0 < List.indexOf x chain
              ∧ List.indexOf x chain < chain.length - 1
            then addLabel (addLabel ap' x "layered_shell") x "low_activity_intermediary"
            else addLabel ap' x "layered_shell") a [] := by
      intro ap' a q h
      split
      · exact mem_addLabel_of_mem _ _ (mem_addLabel_of_mem _ _ h)
      · exact mem_addLabel_of_mem _ _ h
    have hstep3 : ∀ ap' : AList (List String), "layered_shell" ∈ getD
        (if getD tc x 0 ≤ 3 ∧ 0 < List.indexOf x chain
            ∧ List.indexOf x chain < chain.length - 1
          then addLabel (addLabel ap' x "layered_shell") x "low_activity_intermediary"
          else addLabel ap' x "layered_shell") x [] := by
      intro ap'
      split
      · exact mem_addLabel_of_mem _ _ (mem_addLabel_self _ _ _)
      · exact mem_addLabel_self _ _ _
    obtain ⟨ih1, ih2, ih3, ih4⟩ := ih hrest (setv ar x (getD ar x [] ++ [rid]))
      (if getD tc x 0 ≤ 3 ∧ 0 < List.indexOf x chain
          ∧ List.indexOf x chain < chain.length - 1
        then addLabel (addLabel ap x "layered_shell") x "low_activity_intermediary"
        else addLabel ap x "layered_shell")
    refine ⟨fun acc => ?_, fun acc q h => ih2 acc q (hstep2 ap h), ?_, ?_⟩
    · rw [ih1 acc]
      by_cases hax : acc = x
      · subst hax
        rw [getD_setv_self, if_neg (by intro h; exact hx h), if_pos (List.mem_cons_self _ _)]
        simp
      · rw [getD_setv_ne (fun h => hax h)]
        by_cases hm : acc ∈ rest
        · rw [if_pos hm, if_pos (List.mem_cons_of_mem _ hm)]
        · rw [if_neg hm, if_neg (by simp [List.mem_cons, hax, hm])]
    · intro acc hacc
      rcases List.mem_cons.1 hacc with rfl | htail
      · exact ih2 acc _ (hstep3 ap)
      · exact ih3 acc htail
    · intro acc hacc hcond
      rcases List.mem_cons.1 hacc with rfl | htail
      · refine ih2 acc _ ?_
        rw [if_pos hcond]
        exact mem_addLabel_self _ _ _
      · exact ih4 acc htail hcond

/-! ### Keys of the smurfing map are duplicate-free -/

theorem nodup_keysOf_addLabel (m : AList (List String)) (k l : String)
    (h : (keysOf m).Nodup) : (keysOf (addLabel m k l)).Nodup :=
  nodup_keysOf_setv m k _ h

theorem nodup_keysOf_foldl_addLabel (lab : String) (L : List String) :
    ∀ m : AList (List String), (keysOf m).Nodup →
      (keysOf (L.foldl (fun m' s => addLabel m' s lab) m)).Nodup := by
  induction L with
  | nil => exact fun _ h => h
  | cons x rest ih =>
    intro m h
    rw [List.foldl_cons]
    exact ih _ (nodup_keysOf_addLabel _ _ _ h)

theorem nodup_keysOf_fanInAnchor (sus : AList (List String)) (r : String)
    (txs : List Transaction) (anchor : Transaction)
    (h : (keysOf sus).Nodup) : (keysOf (fanInAnchor sus r txs anchor)).Nodup := by
  unfold fanInAnchor
  by_cases hc : 3 ≤ (dedupF ((txs.filter fun t =>
      anchor.timestamp ≤ t.timestamp
        ∧ t.timestamp ≤ anchor.timestamp + WINDOW_MS).map (·.sender_id))).length
  · rw [if_pos hc]
    exact nodup_keysOf_foldl_addLabel _ _ _ (nodup_keysOf_addLabel _ _ _ h)
  · rwa [if_neg hc]

theorem nodup_keysOf_fanOutAnchor (sus : AList (List String)) (r : String)
    (txs : List Transaction) (anchor : Transaction)
    (h : (keysOf sus).Nodup) : (keysOf (fanOutAnchor sus r txs anchor)).Nodup := by
  unfold fanOutAnchor
  by_cases hc : 3 ≤ (dedupF ((txs.filter fun t =>
      anchor.timestamp ≤ t.timestamp
        ∧ t.timestamp ≤ anchor.timestamp + WINDOW_MS).map (·.receiver_id))).length
  · rw [if_pos hc]
    exact nodup_keysOf_addLabel _ _ _ h
  · rwa [if_neg hc]

theorem nodup_keysOf_detectSmurfing (transactions : List Transaction) :
    (keysOf (detectSmurfing transactions)).Nodup := by
  unfold detectSmurfing
  have hin : ∀ (r : String) (gtxs anchors : List Transaction)
      (sus : AList (List String)), (keysOf sus).Nodup →
      (keysOf (anchors.foldl (fun m' a => fanInAnchor m' r gtxs a) sus)).Nodup := by
    intro r gtxs anchors
    induction anchors with
    | nil => exact fun _ h => h
    | cons a rest ih =>
      intro sus h
      rw [List.foldl_cons]
      exact ih _ (nodup_keysOf_fanInAnchor _ _ _ _ h)
  have hout : ∀ (r : String) (gtxs anchors : List Transaction)
      (sus : AList (List String)), (keysOf sus).Nodup →
      (keysOf (anchors.foldl (fun m' a => fanOutAnchor m' r gtxs a) sus)).Nodup := by
    intro r gtxs anchors
    induction anchors with
    | nil => exact fun _ h => h
    | cons a rest ih =>
      intro sus h
      rw [List.foldl_cons]
      exact ih _ (nodup_keysOf_fanOutAnchor _ _ _ _ h)
  have houter : ∀ (entries : AList (List Transaction)) (init : AList (List String)),
      (keysOf init).Nodup →
      (keysOf (entries.foldl
        (fun m e => e.2.foldl (fun m' a => fanInAnchor m' e.1 e.2 a) m) init)).Nodup := by
    intro entries
    induction entries with
    | nil => exact fun _ h => h
    | cons e rest ih =>
      intro init h
      rw [List.foldl_cons]
      exact ih _ (hin _ _ _ _ h)
  have houter2 : ∀ (entries : AList (List Transaction)) (init : AList (List String)),
      (keysOf init).Nodup →
      (keysOf (entries.foldl
        (fun m e => e.2.foldl (fun m' a => fanOutAnchor m' e.1 e.2 a) m) init)).Nodup := by
    intro entries
    induction entries with
    | nil => exact fun _ h => h
    | cons e rest ih =>
      intro init h
      rw [List.foldl_cons]
      exact ih _ (hout _ _ _ _ h)
  exact houter2 _ _ (houter _ [] (by simp [keysOf]))

/-! ### The aggregation invariant holds after the three ring phases -/

theorem initialRingState_inv : RingsInv initialRingState := by
  intro acc
  simp [initialRingState, getD, getv]

theorem cyclePhase_inv (st : RingState) (cycle : List String) (hnd : cycle.Nodup)
    (hinv : RingsInv st) : RingsInv (cyclePhase st cycle) := by
  intro acc
  obtain ⟨h1, -, -⟩ := cycleFold_spec (ringName (st.ringCounter + 1))
    ("cycle_length_" ++ toString cycle.length) cycle hnd st.accountRings st.accountPatterns
  show getD (cycle.foldl _ (st.accountRings, st.accountPatterns)).1 acc [] = _
  rw [h1 acc, hinv acc]
  show _ = ((st.fraudRings ++ [mkCycleRing (st.ringCounter + 1) cycle]).filter
      (fun r => acc ∈ r.member_accounts)).map (·.ring_id)
  rw [List.filter_append, List.map_append]
  congr 1
  by_cases hm : acc ∈ cycle
  · rw [if_pos hm]
    simp [mkCycleRing, hm, ringName]
  · rw [if_neg hm]
    simp [mkCycleRing, hm]

theorem smurfPhase_inv (st : RingState) (results : AList (List String))
    (hnd : (keysOf results).Nodup) (hinv : RingsInv st) :
    RingsInv (smurfPhase st results) := by
  unfold smurfPhase
  by_cases hb : 2 ≤ (keysOf results).length
  · rw [if_pos hb]
    intro acc
    obtain ⟨h1, -⟩ := smurfFold_spec (ringName (st.ringCounter + 1)) results hnd
      st.accountRings st.accountPatterns
    show getD (results.foldl _ (st.accountRings, st.accountPatterns)).1 acc [] = _
    rw [h1 acc, hinv acc]
    show _ = ((st.fraudRings
        ++ [(⟨ringName (st.ringCounter + 1), keysOf results, "smurfing", 80⟩ : FraudRing)]).filter
        (fun r => acc ∈ r.member_accounts)).map (·.ring_id)
    rw [List.filter_append, List.map_append]
    congr 1
    by_cases hm : acc ∈ keysOf results
    · rw [if_pos hm]
      simp [hm]
    · rw [if_neg hm]
      simp [hm]
  · rwa [if_neg hb]

theorem shellPhase_inv (tc : AList ℕ) (st : RingState) (chain : List String)
    (hnd : chain.Nodup) (hinv : RingsInv st) : RingsInv (shellPhase tc st chain) := by
  intro acc
  obtain ⟨h1, -, -, -⟩ := shellFold_spec (ringName (st.ringCounter + 1)) tc chain
    chain hnd st.accountRings st.accountPatterns
  show getD (chain.foldl _ (st.accountRings, st.accountPatterns)).1 acc [] = _
  rw [h1 acc, hinv acc]
  show _ = ((st.fraudRings ++ [mkShellRing (st.ringCounter + 1) chain]).filter
      (fun r => acc ∈ r.member_accounts)).map (·.ring_id)
  rw [List.filter_append, List.map_append]
  congr 1
  by_cases hm : acc ∈ chain
  · rw [if_pos hm]
    simp [mkShellRing, hm, ringName]
  · rw [if_neg hm]
    simp [mkShellRing, hm]

theorem ringsAfterShells_inv (transactions : List Transaction) :
    RingsInv (ringsAfterShells transactions) := by
  unfold ringsAfterShells
  have hcyc : ∀ (L : List (List String)), (∀ c ∈ L, c.Nodup) → ∀ st : RingState,
      RingsInv st → RingsInv (L.foldl cyclePhase st) := by
    intro L
    induction L with
    | nil => exact fun _ _ h => h
    | cons c rest ih =>
      intro hL st hst
      rw [List.foldl_cons]
      exact ih (fun x hx => hL x (List.mem_cons_of_mem _ hx)) _
        (cyclePhase_inv st c (hL c (List.mem_cons_self _ _)) hst)
  have hsh : ∀ (L : List (List String)), (∀ c ∈ L, c.Nodup) → ∀ st : RingState,
      RingsInv st →
      RingsInv (L.foldl (shellPhase (txCountsOf transactions)) st) := by
    intro L
    induction L with
    | nil => exact fun _ _ h => h
    | cons c rest ih =>
      intro hL st hst
      rw [List.foldl_cons]
      exact ih (fun x hx => hL x (List.mem_cons_of_mem _ hx)) _
        (shellPhase_inv _ st c (hL c (List.mem_cons_self _ _)) hst)
  refine hsh _ ?_ _ (smurfPhase_inv _ _ (nodup_keysOf_detectSmurfing transactions)
    (hcyc _ ?_ _ initialRingState_inv))
  · intro c hc
    exact ((detectLayeredShells_spec (buildAdjacencyList transactions)
      (txCountsOf transactions)).2 c hc).1
  · intro c hc
    exact (detectCycles_spec (buildAdjacencyList transactions) 5).2.2 c hc

/-! ### The final account-ring map agrees with the aggregation state -/

theorem getD_ensureRingKey (ar : AList (List String)) (k acc : String) :
    getD (ensureRingKey ar k) acc [] = getD ar acc [] := by
  unfold ensureRingKey
  rcases ho : getv ar k with _ | v
  · rw [if_neg (by simp [ho])]
    by_cases hak : acc = k
    · subst hak
      rw [getD_setv_self]
      simp [getD, ho]
    · rw [getD_setv_ne (fun h => hak h)]
  · rw [if_pos (by simp [ho])]

theorem getD_foldl_ensureRingKey (entries : AList (List String)) :
    ∀ (ar : AList (List String)) (acc : String),
      getD (entries.foldl (fun m e => ensureRingKey m e.1) ar) acc []
        = getD ar acc [] := by
  induction entries with
  | nil => exact fun _ _ => rfl
  | cons e rest ih =>
    intro ar acc
    rw [List.foldl_cons, ih, getD_ensureRingKey]

theorem getD_finalAccountRings (transactions : List Transaction) (acc : String) :
    getD (finalAccountRings transactions) acc []
      = getD (ringsAfterShells transactions).accountRings acc [] := by
  unfold finalAccountRings
  rw [getD_foldl_ensureRingKey, getD_foldl_ensureRingKey]

theorem accountRings_characterization (transactions : List Transaction) (acc : String) :
    getD (finalAccountRings transactions) acc []
      = (((ringsAfterShells transactions).fraudRings).filter
          (fun r => acc ∈ r.member_accounts)).map (·.ring_id) := by
  rw [getD_finalAccountRings]
  exact ringsAfterShells_inv transactions acc

/-! ### Shell labels survive to the final pattern map -/

theorem shellPhase_pats_mono (tc : AList ℕ) (st : RingState) (chain : List String)
    (hnd : chain.Nodup) {a p : String}
    (h : p ∈ getD st.accountPatterns a []) :
    p ∈ getD (shellPhase tc st chain).accountPatterns a [] := by
  obtain ⟨-, h2, -, -⟩ := shellFold_spec (ringName (st.ringCounter + 1)) tc chain
    chain hnd st.accountRings st.accountPatterns
  exact h2 a p h

theorem shellPhase_pats_attain (tc : AList ℕ) (st : RingState) (chain : List String)
    (hnd : chain.Nodup) :
    (∀ acc ∈ chain, "layered_shell" ∈ getD (shellPhase tc st chain).accountPatterns acc [])
    ∧ (∀ acc ∈ chain, (getD tc acc 0 ≤ 3 ∧ 0 < List.indexOf acc chain
        ∧ List.indexOf acc chain < chain.length - 1) →
      "low_activity_intermediary" ∈ getD (shellPhase tc st chain).accountPatterns acc []) := by
  obtain ⟨-, -, h3, h4⟩ := shellFold_spec (ringName (st.ringCounter + 1)) tc chain
    chain hnd st.accountRings st.accountPatterns
  exact ⟨h3, h4⟩

theorem foldl_shellPhase_pats (tc : AList ℕ) (L : List (List String))
    (hL : ∀ c ∈ L, c.Nodup) : ∀ st : RingState,
    (∀ a p, p ∈ getD st.accountPatterns a [] →
      p ∈ getD (L.foldl (shellPhase tc) st).accountPatterns a [])
    ∧ (∀ chain ∈ L,
      (∀ acc ∈ chain,
        "layered_shell" ∈ getD (L.foldl (shellPhase tc) st).accountPatterns acc [])
      ∧ (∀ acc ∈ chain, (getD tc acc 0 ≤ 3 ∧ 0 < List.indexOf acc chain
          ∧ List.indexOf acc chain < chain.length - 1) →
        "low_activity_intermediary"
          ∈ getD (L.foldl (shellPhase tc) st).accountPatterns acc [])) := by
  induction L with
  | nil => exact fun st => ⟨fun _ _ h => h, by simp⟩
  | cons c rest ih =>
    intro st
    have hc := hL c (List.mem_cons_self _ _)
    have hrest := fun x hx => hL x (List.mem_cons_of_mem _ hx)
    obtain ⟨ihmono, ihattain⟩ := ih hrest (shellPhase tc st c)
    rw [List.foldl_cons]
    refine ⟨fun a p h => ihmono a p (shellPhase_pats_mono tc st c hc h), ?_⟩
    intro chain hchain
    rcases List.mem_cons.1 hchain with rfl | htail
    · obtain ⟨h3, h4⟩ := shellPhase_pats_attain tc st chain hc
      exact ⟨fun acc hacc => ihmono _ _ (h3 acc hacc),
        fun acc hacc hcond => ihmono _ _ (h4 acc hacc hcond)⟩
    · exact ihattain chain htail

theorem mergePatterns_mono (results : AList (List String)) :
    ∀ (ap : AList (List String)) {a p : String}, p ∈ getD ap a [] →
      p ∈ getD (mergePatterns ap results) a [] := by
  unfold mergePatterns
  induction results with
  | nil => exact fun _ _ _ h => h
  | cons e rest ih =>
    intro ap a p h
    rw [List.foldl_cons]
    exact ih _ (mem_foldl_addLabel_pats_mono _ _ _ h)

theorem finalPatterns_mono (transactions : List Transaction) {a p : String}
    (h : p ∈ getD (ringsAfterShells transactions).accountPatterns a []) :
    p ∈ getD (finalPatterns transactions) a [] := by
  unfold finalPatterns
  exact mergePatterns_mono _ _ (mergePatterns_mono _ _
    (mergePatterns_mono _ _ (mergePatterns_mono _ _ h)))

theorem finalPatterns_shell_labels (transactions : List Transaction) :
    ∀ chain ∈ shellsOf transactions,
      (∀ acc ∈ chain, "layered_shell" ∈ getD (finalPatterns transactions) acc [])
      ∧ (∀ acc ∈ chain, (getD (txCountsOf transactions) acc 0 ≤ 3
          ∧ 0 < List.indexOf acc chain
          ∧ List.indexOf acc chain < chain.length - 1) →
        "low_activity_intermediary" ∈ getD (finalPatterns transactions) acc []) := by
  intro chain hchain
  have hnodups : ∀ c ∈ shellsOf transactions, c.Nodup := fun c hc =>
    ((detectLayeredShells_spec (buildAdjacencyList transactions)
      (txCountsOf transactions)).2 c hc).1
  have h := (foldl_shellPhase_pats (txCountsOf transactions) (shellsOf transactions)
    hnodups (smurfPhase ((cyclesOf transactions).foldl cyclePhase initialRingState)
      (detectSmurfing transactions))).2 chain hchain
  have hras : (ringsAfterShells transactions).accountPatterns
      = ((shellsOf transactions).foldl (shellPhase (txCountsOf transactions))
        (smurfPhase ((cyclesOf transactions).foldl cyclePhase initialRingState)
          (detectSmurfing transactions))).accountPatterns := rfl
  refine ⟨fun acc hacc => finalPatterns_mono transactions ?_,
    fun acc hacc hcond => finalPatterns_mono transactions ?_⟩
  · rw [hras]
    exact h.1 acc hacc
  · rw [hras]
    exact h.2 acc hacc hcond

/-! ### Membership in the suspicious-account list -/

theorem mem_suspiciousUnsorted (transactions : List Transaction)
    (sa : SuspiciousAccount) :
    sa ∈ suspiciousUnsorted transactions
      ↔ ∃ acc ∈ allFlaggedAccounts transactions,
          getD (finalPatterns transactions) acc [] ≠ []
          ∧ 15 ≤ scoreOf transactions acc
          ∧ sa = mkSuspicious transactions acc := by
  unfold suspiciousUnsorted
  suffices h : ∀ (L : List String) (init : List SuspiciousAccount),
      sa ∈ L.foldl (fun lst acc =>
        if (getD (finalPatterns transactions) acc []).length = 0 then lst
        else if 15 ≤ scoreOf transactions acc then
          lst ++ [⟨acc, round1 (scoreOf transactions acc),
            getD (finalPatterns transactions) acc [],
            (getD (finalAccountRings transactions) acc []).headD "STANDALONE"⟩]
        else lst) init
      ↔ sa ∈ init ∨ ∃ acc ∈ L,
          getD (finalPatterns transactions) acc [] ≠ []
          ∧ 15 ≤ scoreOf transactions acc
          ∧ sa = mkSuspicious transactions acc by
    simpa using h (allFlaggedAccounts transactions) []
  intro L
  induction L with
  | nil => simp
  | cons a rest ih =>
    intro init
    rw [List.foldl_cons, ih]
    by_cases h0 : (getD (finalPatterns transactions) a []).length = 0
    · rw [if_pos h0]
      have hane : ¬ (getD (finalPatterns transactions) a [] ≠ []) := by
        simpa [List.length_eq_zero] using h0
      constructor
      · rintro (h | ⟨acc, hacc, hx⟩)
        · exact Or.inl h
        · exact Or.inr ⟨acc, List.mem_cons_of_mem _ hacc, hx⟩
      · rintro (h | ⟨acc, hacc, hx⟩)
        · exact Or.inl h
        · rcases List.mem_cons.1 hacc with rfl | htail
          · exact absurd hx.1 hane
          · exact Or.inr ⟨acc, htail, hx⟩
    · rw [if_neg h0]
      have hne : getD (finalPatterns transactions) a [] ≠ [] := by
        simpa [List.length_eq_zero] using h0
      by_cases hs : 15 ≤ scoreOf transactions a
      · rw [if_pos hs]
        constructor
        · rintro (h | ⟨acc, hacc, hx⟩)
          · rcases List.mem_append.1 h with h | h
            · exact Or.inl h
            · simp only [List.mem_singleton] at h
              exact Or.inr ⟨a, List.mem_cons_self _ _, hne, hs, h⟩
          · exact Or.inr ⟨acc, List.mem_cons_of_mem _ hacc, hx⟩
        · rintro (h | ⟨acc, hacc, hx⟩)
          · exact Or.inl (List.mem_append.2 (Or.inl h))
          · rcases List.mem_cons.1 hacc with rfl | htail
            · exact Or.inl (List.mem_append.2 (Or.inr (by simp [hx.2.2, mkSuspicious])))
            · exact Or.inr ⟨acc, htail, hx⟩
      · rw [if_neg hs]
        constructor
        · rintro (h | ⟨acc, hacc, hx⟩)
          · exact Or.inl h
          · exact Or.inr ⟨acc, List.mem_cons_of_mem _ hacc, hx⟩
        · rintro (h | ⟨acc, hacc, hx⟩)
          · exact Or.inl h
          · rcases List.mem_cons.1 hacc with rfl | htail
            · exact absurd hx.2.1 hs
            · exact Or.inr ⟨acc, htail, hx⟩

theorem mem_suspicious_iff_unsorted (transactions : List Transaction)
    (sa : SuspiciousAccount) :
    sa ∈ (analyzeTransactions transactions).suspicious_accounts
      ↔ sa ∈ suspiciousUnsorted transactions :=
  (List.perm_insertionSort byScoreDesc (suspiciousUnsorted transactions)).mem_iff

theorem flagged_of_patterns_ne (transactions : List Transaction) (acc : String)
    (h : getD (finalPatterns transactions) acc [] ≠ []) :
    acc ∈ allFlaggedAccounts transactions := by
  unfold allFlaggedAccounts
  rw [mem_dedupF, List.mem_append]
  right
  rw [mem_keysOf_iff]
  rcases ho : getv (finalPatterns transactions) acc with _ | v
  · exact absurd (by simp [getD, ho]) h
  · simp

/-! ### Claim C5: sequential ring ids and first-ring assignment -/

theorem ringsFromList_length (mk : ℕ → List String → FraudRing) :
    ∀ (L : List (List String)) (c : ℕ), (ringsFromList mk c L).length = L.length := by
  intro L
  induction L with
  | nil => intro c; rfl
  | cons x xs ih =>
    intro c
    simp [ringsFromList, ih]

theorem ringsFromList_ring_id (mk : ℕ → List String → FraudRing)
    (hmk : ∀ n x, (mk n x).ring_id = ringName n) :
    ∀ (L : List (List String)) (c i : ℕ) (h : i < (ringsFromList mk c L).length),
      ((ringsFromList mk c L).get ⟨i, h⟩).ring_id = ringName (c + i + 1) := by
  intro L
  induction L with
  | nil =>
    intro c i h
    simp [ringsFromList] at h
  | cons x xs ih =>
    intro c i h
    cases i with
    | zero => exact hmk (c + 1) x
    | succ i =>
      have h' : i < (ringsFromList mk (c + 1) xs).length := by
        simpa [ringsFromList] using h
      have := ih (c + 1) i h'
      have harith : c + 1 + i + 1 = c + (i + 1) + 1 := by omega
      calc ((ringsFromList mk c (x :: xs)).get ⟨i + 1, h⟩).ring_id
          = ((ringsFromList mk (c + 1) xs).get ⟨i, h'⟩).ring_id := rfl
        _ = ringName (c + 1 + i + 1) := this
        _ = ringName (c + (i + 1) + 1) := by rw [harith]

theorem ringsFromList_mem_shape (mk : ℕ → List String → FraudRing) :
    ∀ (L : List (List String)) (c : ℕ) (r : FraudRing),
      r ∈ ringsFromList mk c L → ∃ n x, x ∈ L ∧ r = mk n x := by
  intro L
  induction L with
  | nil => simp [ringsFromList]
  | cons x xs ih =>
    intro c r hr
    rcases List.mem_cons.1 hr with rfl | htail
    · exact ⟨c + 1, x, List.mem_cons_self _ _, rfl⟩
    · obtain ⟨n, y, hy, hr⟩ := ih (c + 1) r htail
      exact ⟨n, y, List.mem_cons_of_mem _ hy, hr⟩

theorem ringsFromList_mem_self (mk : ℕ → List String → FraudRing) :
    ∀ (L : List (List String)) (c : ℕ) (x : List String), x ∈ L →
      ∃ n, mk n x ∈ ringsFromList mk c L := by
  intro L
  induction L with
  | nil => simp
  | cons y ys ih =>
    intro c x hx
    rcases List.mem_cons.1 hx with rfl | htail
    · exact ⟨c + 1, List.mem_cons_self _ _⟩
    · obtain ⟨n, hn⟩ := ih (c + 1) x htail
      exact ⟨n, List.mem_cons_of_mem _ hn⟩

theorem seq_ids_append (rs1 rs2 : List FraudRing) (c : ℕ)
    (h1 : ∀ i (h : i < rs1.length), (rs1.get ⟨i, h⟩).ring_id = ringName (c + i + 1))
    (h2 : ∀ i (h : i < rs2.length),
      (rs2.get ⟨i, h⟩).ring_id = ringName (c + rs1.length + i + 1)) :
    ∀ i (h : i < (rs1 ++ rs2).length),
      ((rs1 ++ rs2).get ⟨i, h⟩).ring_id = ringName (c + i + 1) := by
  intro i h
  by_cases hi : i < rs1.length
  · rw [List.get_eq_getElem, List.getElem_append_left hi]
    exact h1 i hi
  · push_neg at hi
    have hlt : i - rs1.length < rs2.length := by
      rw [List.length_append] at h
      omega
    rw [List.get_eq_getElem, List.getElem_append_right hi]
    have := h2 (i - rs1.length) hlt
    rw [List.get_eq_getElem] at this
    rw [this]
    congr 1
    omega

/-- C5: ring ids are allocated from one counter in the fixed order cycles,
smurfing, shells: the i-th created ring (0-based) is named `RING_` with the
zero-padded number i+1; the ring list decomposes into the cycle block, an
at-most-one-element smurfing block and the shell block, in that order; and
every output account's `ring_id` is the id of the first created ring it
belongs to, or `STANDALONE` when it belongs to none. -/
theorem ring_id_allocation :
    (∀ (transactions : List Transaction) (i : ℕ)
        (h : i < (analyzeTransactions transactions).fraud_rings.length),
      ((analyzeTransactions transactions).fraud_rings.get ⟨i, h⟩).ring_id
        = ringName (i + 1))
    ∧ (∀ transactions : List Transaction, ∃ l1 l2 l3,
        (analyzeTransactions transactions).fraud_rings = l1 ++ l2 ++ l3
        ∧ (∀ r ∈ l1, r.pattern_type = "cycle")
        ∧ (∀ r ∈ l2, r.pattern_type = "smurfing") ∧ l2.length ≤ 1
        ∧ (∀ r ∈ l3, r.pattern_type = "layered_shell"))
    ∧ (∀ (transactions : List Transaction) (sa : SuspiciousAccount),
        sa ∈ (analyzeTransactions transactions).suspicious_accounts →
        sa.ring_id = ((((analyzeTransactions transactions).fraud_rings.filter
            (fun r => sa.account_id ∈ r.member_accounts)).map (·.ring_id)).headD
          "STANDALONE")) := by
  have hfr : ∀ transactions : List Transaction,
      (analyzeTransactions transactions).fraud_rings
        = (ringsAfterShells transactions).fraudRings := fun _ => rfl
  refine ⟨?_, ?_, ?_⟩
  · intro transactions i h
    show ((ringsAfterShells transactions).fraudRings.get ⟨i, h⟩).ring_id
      = ringName (i + 1)
    have h : i < (ringsAfterShells transactions).fraudRings.length := h
    have hdec := fraudRings_decomposition transactions
    have hmid : ∀ i (h : i < (if 2 ≤ (keysOf (detectSmurfing transactions)).length then
        [(⟨ringName ((cyclesOf transactions).length + 1),
          keysOf (detectSmurfing transactions), "smurfing", 80⟩ : FraudRing)] else []).length),
        ((if 2 ≤ (keysOf (detectSmurfing transactions)).length then
          [(⟨ringName ((cyclesOf transactions).length + 1),
            keysOf (detectSmurfing transactions), "smurfing", 80⟩ : FraudRing)] else []).get
          ⟨i, h⟩).ring_id
          = ringName (0 + (cyclesOf transactions).length + i + 1) := by
      intro i h
      by_cases hb : 2 ≤ (keysOf (detectSmurfing transactions)).length
      · have h' : i < ([(⟨ringName ((cyclesOf transactions).length + 1),
            keysOf (detectSmurfing transactions), "smurfing", 80⟩ : FraudRing)]).length := by
          rwa [if_pos hb] at h
        have hi0 : i = 0 := by
          simp only [List.length_singleton] at h'
          omega
        subst hi0
        rw [List.get_eq_getElem, List.getElem_of_eq (if_pos hb)]
        simp
      · have h' : i < ([] : List FraudRing).length := by
          rwa [if_neg hb] at h
        simp at h'
    have hmidlen : (if 2 ≤ (keysOf (detectSmurfing transactions)).length then
        [(⟨ringName ((cyclesOf transactions).length + 1),
          keysOf (detectSmurfing transactions), "smurfing", 80⟩ : FraudRing)] else []).length
        = smurfRingCount transactions := by
      unfold smurfRingCount
      by_cases hb : 2 ≤ (keysOf (detectSmurfing transactions)).length
      · rw [if_pos hb, if_pos hb]
        rfl
      · rw [if_neg hb, if_neg hb]
        rfl
    have hcyc := ringsFromList_ring_id mkCycleRing (fun n x => rfl)
      (cyclesOf transactions) 0
    have hshell := ringsFromList_ring_id mkShellRing (fun n x => rfl)
      (shellsOf transactions) ((cyclesOf transactions).length + smurfRingCount transactions)
    have hclen := ringsFromList_length mkCycleRing (cyclesOf transactions) 0
    have happ1 := seq_ids_append _ _ 0 (by simpa using hcyc) (by
      intro i h
      have := hmid i h
      rw [this]
      congr 1
      omega)
    have happ2 := seq_ids_append _ _ 0 happ1 (by
      intro i h
      have := hshell i h
      rw [this]
      congr 1
      rw [List.length_append, hclen, hmidlen]
      omega)
    rw [List.get_eq_getElem, List.getElem_of_eq hdec]
    have h2 : i < ((ringsFromList mkCycleRing 0 (cyclesOf transactions)
        ++ (if 2 ≤ (keysOf (detectSmurfing transactions)).length then
          [(⟨ringName ((cyclesOf transactions).length + 1),
            keysOf (detectSmurfing transactions), "smurfing", 80⟩ : FraudRing)] else []))
        ++ ringsFromList mkShellRing
          ((cyclesOf transactions).length + smurfRingCount transactions)
          (shellsOf transactions)).length := by
      rw [← hdec]
      exact h
    have hfin := happ2 i h2
    rw [List.get_eq_getElem] at hfin
    rw [show (0 : ℕ) + i + 1 = i + 1 from by omega] at hfin
    exact hfin
  · intro transactions
    refine ⟨ringsFromList mkCycleRing 0 (cyclesOf transactions),
      (if 2 ≤ (keysOf (detectSmurfing transactions)).length then
        [(⟨ringName ((cyclesOf transactions).length + 1),
          keysOf (detectSmurfing transactions), "smurfing", 80⟩ : FraudRing)] else []),
      ringsFromList mkShellRing
        ((cyclesOf transactions).length + smurfRingCount transactions)
        (shellsOf transactions),
      by rw [hfr]; exact fraudRings_decomposition transactions, ?_, ?_, ?_, ?_⟩
    · intro r hr
      obtain ⟨n, x, -, hrx⟩ := ringsFromList_mem_shape mkCycleRing _ _ r hr
      rw [hrx]
      rfl
    · intro r hr
      by_cases hb : 2 ≤ (keysOf (detectSmurfing transactions)).length
      · rw [if_pos hb] at hr
        simp only [List.mem_singleton] at hr
        rw [hr]
      · rw [if_neg hb] at hr
        simp at hr
    · by_cases hb : 2 ≤ (keysOf (detectSmurfing transactions)).length
      · rw [if_pos hb]
        simp
      · rw [if_neg hb]
        simp
    · intro r hr
      obtain ⟨n, x, -, hrx⟩ := ringsFromList_mem_shape mkShellRing _ _ r hr
      rw [hrx]
      rfl
  · intro transactions sa hmem
    rw [mem_suspicious_iff_unsorted, mem_suspiciousUnsorted] at hmem
    obtain ⟨acc, -, -, -, hsa⟩ := hmem
    subst hsa
    show (getD (finalAccountRings transactions) acc []).headD "STANDALONE" = _
    rw [accountRings_characterization]
    rfl

/-! ### Claim C6: layered-shell rings -/

theorem ringsFromList_shell_filter_nil (chain : List String) :
    ∀ (L : List (List String)) (c : ℕ), chain ∉ L →
      (ringsFromList mkShellRing c L).filter
        (fun r => r.pattern_type = "layered_shell" ∧ r.member_accounts = chain) = [] := by
  intro L
  induction L with
  | nil => intro c _; rfl
  | cons x xs ih =>
    intro c hn
    have hx : x ≠ chain := fun h => hn (h ▸ List.mem_cons_self _ _)
    have hxs : chain ∉ xs := fun h => hn (List.mem_cons_of_mem _ h)
    show List.filter _ (mkShellRing (c + 1) x :: ringsFromList mkShellRing (c + 1) xs) = _
    rw [List.filter_cons_of_neg (by simp [mkShellRing, hx]), ih (c + 1) hxs]

theorem ringsFromList_shell_filter_one (chain : List String) :
    ∀ (L : List (List String)) (c : ℕ), chain ∈ L → L.Nodup →
      ((ringsFromList mkShellRing c L).filter
        (fun r => r.pattern_type = "layered_shell" ∧ r.member_accounts = chain)).length
        = 1 := by
  intro L
  induction L with
  | nil => simp
  | cons x xs ih =>
    intro c hmem hnd
    show (List.filter _ (mkShellRing (c + 1) x
        :: ringsFromList mkShellRing (c + 1) xs)).length = 1
    rcases List.mem_cons.1 hmem with rfl | htail
    · rw [List.filter_cons_of_pos (by simp [mkShellRing]),
        ringsFromList_shell_filter_nil chain xs (c + 1) (List.nodup_cons.1 hnd).1]
      rfl
    · have hx : x ≠ chain := by
        intro h
        exact (List.nodup_cons.1 hnd).1 (h ▸ htail)
      rw [List.filter_cons_of_neg (by simp [mkShellRing, hx])]
      exact ih (c + 1) htail (List.nodup_cons.1 hnd).2

/-- C6: every chain the shell detector emits (a duplicate-free path of 4 to
6 nodes whose strictly interior nodes have transaction count at most 3)
gives rise to exactly one fraud ring of pattern type `layered_shell` with
risk score `min (75 + 3·length) 100`; the emitted chains are deduplicated by
the exact ordered path key; all chain members carry the `layered_shell`
label and low-activity interior members additionally carry
`low_activity_intermediary`. -/
theorem layeredShell_rings (transactions : List Transaction) :
    ((shellsOf transactions).map pathKey).Nodup
    ∧ ∀ chain ∈ shellsOf transactions,
        (4 ≤ chain.length ∧ chain.length ≤ 6
          ∧ ∀ n ∈ (chain.drop 1).dropLast, getD (txCountsOf transactions) n 0 ≤ 3)
        ∧ ((analyzeTransactions transactions).fraud_rings.filter
            (fun r => r.pattern_type = "layered_shell"
              ∧ r.member_accounts = chain)).length = 1
        ∧ (∃ r ∈ (analyzeTransactions transactions).fraud_rings,
            r.pattern_type = "layered_shell" ∧ r.member_accounts = chain
            ∧ r.risk_score = min (75 + chain.length * 3) 100)
        ∧ (∀ acc ∈ chain, "layered_shell" ∈ getD (finalPatterns transactions) acc [])
        ∧ (∀ acc ∈ chain, getD (txCountsOf transactions) acc 0 ≤ 3 →
            0 < List.indexOf acc chain → List.indexOf acc chain < chain.length - 1 →
            "low_activity_intermediary" ∈ getD (finalPatterns transactions) acc []) := by
  have hspec := detectLayeredShells_spec (buildAdjacencyList transactions)
    (txCountsOf transactions)
  have hfr : (analyzeTransactions transactions).fraud_rings
      = (ringsAfterShells transactions).fraudRings := rfl
  have hdec := fraudRings_decomposition transactions
  refine ⟨hspec.1, fun chain hchain => ⟨?_, ?_, ?_, ?_, ?_⟩⟩
  · obtain ⟨-, h4, h6, hint⟩ := hspec.2 chain hchain
    exact ⟨h4, h6, hint⟩
  · rw [hfr, hdec, List.filter_append, List.filter_append, List.length_append,
      List.length_append]
    have hA : ((ringsFromList mkCycleRing 0 (cyclesOf transactions)).filter
        (fun r => r.pattern_type = "layered_shell" ∧ r.member_accounts = chain)).length
        = 0 := by
      rw [List.length_eq_zero]
      rw [List.filter_eq_nil_iff]
      intro r hr
      obtain ⟨n, x, -, rfl⟩ := ringsFromList_mem_shape mkCycleRing _ _ r hr
      simp [mkCycleRing]
    have hB : ((if 2 ≤ (keysOf (detectSmurfing transactions)).length then
        [(⟨ringName ((cyclesOf transactions).length + 1),
          keysOf (detectSmurfing transactions), "smurfing", 80⟩ : FraudRing)]
        else []).filter
        (fun r => r.pattern_type = "layered_shell" ∧ r.member_accounts = chain)).length
        = 0 := by
      rw [List.length_eq_zero, List.filter_eq_nil_iff]
      intro r hr
      by_cases hb : 2 ≤ (keysOf (detectSmurfing transactions)).length
      · rw [if_pos hb] at hr
        simp only [List.mem_singleton] at hr
        subst hr
        simp
      · rw [if_neg hb] at hr
        simp at hr
    rw [hA, hB, ringsFromList_shell_filter_one chain (shellsOf transactions) _ hchain
      (shellsOf_nodup transactions)]
  · obtain ⟨n, hn⟩ := ringsFromList_mem_self mkShellRing (shellsOf transactions)
      ((cyclesOf transactions).length + smurfRingCount transactions) chain hchain
    refine ⟨mkShellRing n chain, ?_, rfl, rfl, rfl⟩
    rw [hfr, hdec]
    exact List.mem_append.2 (Or.inr hn)
  · exact (finalPatterns_shell_labels transactions chain hchain).1
  · intro acc hacc h1 h2 h3
    exact (finalPatterns_shell_labels transactions chain hchain).2 acc hacc ⟨h1, h2, h3⟩

/-! ### Claim C2: the retention rule -/

/-- C2: the final suspicion score is the running total clamped by
`min · 100`; an account appears in the output exactly when it carries at
least one pattern label and its score reaches 15; and the stored score is
the score rounded to one decimal place. -/
theorem score_clamp_and_retention :
    (∀ (accountId : String) (patterns : List String) (ringCount txCount : ℕ)
        (sent recv : ℚ),
      calcSuspicionScore accountId patterns ringCount txCount sent recv
        = min (rawSuspicionScore patterns ringCount txCount sent recv) 100)
    ∧ (∀ (transactions : List Transaction) (acc : String),
        (∃ sa ∈ (analyzeTransactions transactions).suspicious_accounts,
          sa.account_id = acc)
        ↔ (getD (finalPatterns transactions) acc [] ≠ []
            ∧ 15 ≤ scoreOf transactions acc))
    ∧ (∀ (transactions : List Transaction) (sa : SuspiciousAccount),
        sa ∈ (analyzeTransactions transactions).suspicious_accounts →
        sa.suspicion_score = round1 (scoreOf transactions sa.account_id)
        ∧ sa.detected_patterns = getD (finalPatterns transactions) sa.account_id []) := by
  refine ⟨fun _ _ _ _ _ _ => rfl, ?_, ?_⟩
  · intro transactions acc
    constructor
    · rintro ⟨sa, hsa, hacc⟩
      rw [mem_suspicious_iff_unsorted, mem_suspiciousUnsorted] at hsa
      obtain ⟨acc', -, hne, hsc, rfl⟩ := hsa
      have : acc' = acc := hacc
      subst this
      exact ⟨hne, hsc⟩
    · rintro ⟨hne, hsc⟩
      refine ⟨mkSuspicious transactions acc, ?_, rfl⟩
      rw [mem_suspicious_iff_unsorted, mem_suspiciousUnsorted]
      exact ⟨acc, flagged_of_patterns_ne transactions acc hne, hne, hsc, rfl⟩
  · intro transactions sa hmem
    rw [mem_suspicious_iff_unsorted, mem_suspiciousUnsorted] at hmem
    obtain ⟨acc, -, -, -, rfl⟩ := hmem
    exact ⟨rfl, rfl⟩

/-! ### Claim C10: emitted scores are integers in [15, 100] -/

/-- C10: every emitted suspicion score is an exact natural number between 15
and 100: the scorer only adds and subtracts integer constants from 0 with
integer clamps, so the rounding step `round1` never changes the value and
the stored score equals the unrounded score. -/
theorem suspicion_scores_integral (transactions : List Transaction)
    (sa : SuspiciousAccount)
    (hmem : sa ∈ (analyzeTransactions transactions).suspicious_accounts) :
    ∃ n : ℕ, 15 ≤ n ∧ n ≤ 100 ∧ sa.suspicion_score = (n : ℚ)
      ∧ round1 (n : ℚ) = (n : ℚ)
      ∧ sa.suspicion_score = scoreOf transactions sa.account_id := by
  rw [mem_suspicious_iff_unsorted, mem_suspiciousUnsorted] at hmem
  obtain ⟨acc, -, -, hsc, rfl⟩ := hmem
  have hcast : scoreOf transactions acc
      = (calcSuspicionScoreN (getD (finalPatterns transactions) acc [])
          (getD (finalAccountRings transactions) acc []).length
          (getD (txCountsOf transactions) acc 0)
          (getD (sentAmounts transactions) acc 0)
          (getD (recvAmounts transactions) acc 0) : ℚ) := by
    unfold scoreOf
    exact calcSuspicionScore_cast _ _ _ _ _ _
  refine ⟨calcSuspicionScoreN (getD (finalPatterns transactions) acc [])
      (getD (finalAccountRings transactions) acc []).length
      (getD (txCountsOf transactions) acc 0)
      (getD (sentAmounts transactions) acc 0)
      (getD (recvAmounts transactions) acc 0), ?_, ?_, ?_, round1_natCast _, ?_⟩
  · rw [hcast] at hsc
    exact_mod_cast hsc
  · exact min_le_right _ _
  · show round1 (scoreOf transactions acc) = _
    rw [hcast, round1_natCast]
  · show round1 (scoreOf transactions acc) = scoreOf transactions acc
    rw [hcast, round1_natCast]

/-! ### Witnesses: concrete runs of the pipeline -/

/-- C5 witness: the first ring created on the shell-chain example is
`RING_001`. -/
theorem ring_id_allocation_witness :
    ((analyzeTransactions exShellTxs).fraud_rings.get ⟨0, by decide⟩).ring_id
      = "RING_001" := by
  rw [ring_id_allocation.1 exShellTxs 0 (by decide)]
  decide

/-- C6 witness: the chain A→B→C→D with low-activity B and C yields one
4-member layered-shell ring of risk score min(75+12,100) = 87. -/
theorem layeredShell_rings_witness :
    ∃ r ∈ (analyzeTransactions exShellTxs).fraud_rings,
      r.pattern_type = "layered_shell" ∧ r.member_accounts = ["A", "B", "C", "D"]
      ∧ r.risk_score = 87 := by
  obtain ⟨-, -, ⟨r, hr, h1, h2, h3⟩, -, -⟩ :=
    (layeredShell_rings exShellTxs).2 ["A", "B", "C", "D"] (by decide)
  refine ⟨r, hr, h1, h2, ?_⟩
  rw [h3]
  decide

theorem exStruct_structuring : detectStructuring exStructTxs = [("S", ["structuring"])] := by
  norm_num [detectStructuring, groupByKey, structCount, THRESHOLDS, MARGIN, getD, getv,
    setv, addLabel, List.foldl, exStructTxs]

theorem exStruct_patterns : finalPatterns exStructTxs = [("S", ["structuring"])] := by
  unfold finalPatterns
  rw [show (ringsAfterShells exStructTxs).accountPatterns = [] from by decide,
    show detectHighVelocity exStructTxs = [] from by decide,
    exStruct_structuring,
    show detectRoundTrips exStructTxs = [] from by decide,
    show detectDormantActivation exStructTxs = [] from by decide]
  decide

theorem exStruct_sent : getD (sentAmounts exStructTxs) "S" 0 = 29700 := by
  norm_num [sentAmounts, exStructTxs, setv, getv, getD, List.foldl]

theorem exStruct_recv : getD (recvAmounts exStructTxs) "S" 0 = 0 := by
  norm_num [recvAmounts, exStructTxs, setv, getv, getD, List.foldl]
  decide

theorem exStruct_score : scoreOf exStructTxs "S" = 22 := by
  have hp : getD (finalPatterns exStructTxs) "S" [] = ["structuring"] := by
    rw [exStruct_patterns]
    decide
  have hr : (getD (finalAccountRings exStructTxs) "S" []).length = 0 := by decide
  have ht : getD (txCountsOf exStructTxs) "S" 0 = 3 := by decide
  unfold scoreOf
  rw [hp, hr, ht, exStruct_sent, exStruct_recv, calcSuspicionScore_cast]
  rw [show calcSuspicionScoreN ["structuring"] 0 3 29700 0 = 22 from by decide]
  norm_num

theorem round1_22 : round1 (22 : ℚ) = 22 := by
  have h := round1_natCast 22
  simpa using h

theorem exStruct_suspicious :
    (analyzeTransactions exStructTxs).suspicious_accounts
      = [⟨"S", 22, ["structuring"], "STANDALONE"⟩] := by
  have hp : getD (finalPatterns exStructTxs) "S" [] = ["structuring"] := by
    rw [exStruct_patterns]
    decide
  have hu : suspiciousUnsorted exStructTxs
      = [⟨"S", 22, ["structuring"], "STANDALONE"⟩] := by
    have hflag : allFlaggedAccounts exStructTxs = ["S"] := by
      unfold allFlaggedAccounts
      rw [exStruct_patterns]
      decide
    unfold suspiciousUnsorted
    rw [hflag]
    simp only [List.foldl_cons, List.foldl_nil]
    rw [hp, exStruct_score]
    rw [show getD (finalAccountRings exStructTxs) "S" [] = [] from by decide]
    norm_num [round1_22]
  show List.insertionSort byScoreDesc (suspiciousUnsorted exStructTxs) = _
  rw [hu]
  rfl

/-- C10 witness: the standalone structuring account of `exStructTxs` is
emitted with the exact integer score 22. -/
theorem suspicion_scores_integral_witness :
    ∃ n : ℕ, 15 ≤ n ∧ n ≤ 100
      ∧ (⟨"S", 22, ["structuring"], "STANDALONE"⟩ : SuspiciousAccount).suspicion_score
        = (n : ℚ)
      ∧ round1 (n : ℚ) = (n : ℚ)
      ∧ (⟨"S", 22, ["structuring"], "STANDALONE"⟩ : SuspiciousAccount).suspicion_score
        = scoreOf exStructTxs
          (⟨"S", 22, ["structuring"], "STANDALONE"⟩ : SuspiciousAccount).account_id :=
  suspicion_scores_integral exStructTxs _
    (by rw [exStruct_suspicious]; exact List.mem_singleton.2 rfl)

/-! ### The DFS fuel is adequate: more fuel never changes the result

These lemmas justify reading the fuel-indexed loops as the unbounded while
loops of the source: the supplied fuel bounds the iteration count, so the
zero-fuel branch is never taken from `detectCycles` / `detectLayeredShells`. -/

theorem length_getD_le_adjSize (adj : AList (List String)) (node : String) :
    (getD adj node []).length ≤ adjSize adj := by
  induction adj with
  | nil => simp [getD, getv, adjSize]
  | cons p m ih =>
    obtain ⟨k, l⟩ := p
    have hsize : adjSize ((k, l) :: m) = l.length + adjSize m := by
      simp [adjSize]
    rw [hsize]
    by_cases hk : k = node
    · simp [getD, getv, hk]
    · have hgd : getD ((k, l) :: m) node [] = getD m node [] := by
        simp [getD, getv, hk]
      rw [hgd]
      exact ih.trans (Nat.le_add_left _ _)

theorem sum_map_const {α : Type} (g : α → ℕ) (v : ℕ) :
    ∀ l : List α, (∀ x ∈ l, g x = v) → (l.map g).sum = l.length * v := by
  intro l
  induction l with
  | nil => simp
  | cons x xs ih =>
    intro h
    rw [List.map_cons, List.sum_cons, ih (fun y hy => h y (List.mem_cons_of_mem _ hy)),
      h x (List.mem_cons_self _ _), List.length_cons]
    ring

theorem stackMeasure_cons (B L : ℕ) (f : Frame) (rest : List Frame) :
    stackMeasure B L (f :: rest) = frameWeight B L f + stackMeasure B L rest := by
  simp [stackMeasure]

theorem frameWeight_pos (B L : ℕ) (hB : 1 ≤ B) (f : Frame) :
    1 ≤ frameWeight B L f :=
  Nat.one_le_pow _ _ hB

theorem stack_measure_lt (B L : ℕ) (hB : 2 ≤ B) (f : Frame)
    (rest pushes : List Frame)
    (hlen : ∀ g ∈ pushes, g.path.length = f.path.length + 1)
    (hcount : pushes.length ≤ B - 2)
    (hfewer : pushes ≠ [] → f.path.length < L) :
    stackMeasure B L (pushes.reverse ++ rest) < stackMeasure B L (f :: rest) := by
  rw [stackMeasure_cons]
  have happ : stackMeasure B L (pushes.reverse ++ rest)
      = (pushes.map (frameWeight B L)).sum + stackMeasure B L rest := by
    unfold stackMeasure
    rw [List.map_append, List.sum_append, List.map_reverse, List.sum_reverse]
  rw [happ]
  have hsum : (pushes.map (frameWeight B L)).sum
      = pushes.length * B ^ (L - f.path.length) := by
    refine sum_map_const _ _ _ ?_
    intro g hg
    unfold frameWeight
    rw [hlen g hg, Nat.succ_sub_succ]
  rw [hsum]
  refine Nat.add_lt_add_right ?_ _
  rcases List.eq_nil_or_concat pushes with rfl | hne
  · simp only [List.length_nil, Nat.zero_mul]
    exact frameWeight_pos B L (by omega) f
  · have hnonempty : pushes ≠ [] := by
      rcases hne with ⟨l, a, rfl⟩
      simp
    have hlt := hfewer hnonempty
    have hexp : L + 1 - f.path.length = (L - f.path.length) + 1 := by omega
    unfold frameWeight
    rw [hexp, pow_succ]
    calc pushes.length * B ^ (L - f.path.length)
        ≤ (B - 2) * B ^ (L - f.path.length) :=
          Nat.mul_le_mul_right _ hcount
      _ < B * B ^ (L - f.path.length) :=
          Nat.mul_lt_mul_of_lt_of_le (by omega)
            (Nat.le_refl _) (Nat.pos_pow_of_pos _ (by omega))
      _ = B ^ (L - f.path.length) * B := Nat.mul_comm _ _

theorem cycleScan_pushes (start : String) (maxL : ℕ) (path : List String) :
    ∀ (ns s : List String) (c : List (List String)),
      (∀ f ∈ (cycleScan start maxL path ns s c).2.2, f.path.length = path.length + 1)
      ∧ (cycleScan start maxL path ns s c).2.2.length ≤ ns.length
      ∧ ((cycleScan start maxL path ns s c).2.2 ≠ [] → path.length < maxL) := by
  intro ns
  induction ns with
  | nil =>
    intro s c
    exact ⟨by simp [cycleScan], by simp [cycleScan], by simp [cycleScan]⟩
  | cons next rest ih =>
    intro s c
    by_cases hb1 : next = start ∧ 3 ≤ path.length ∧ path.length ≤ maxL
    · by_cases hb2 : cycleKey path ∈ s
      · simp only [cycleScan, if_pos hb1, if_pos hb2]
        obtain ⟨h1, h2, h3⟩ := ih s c
        exact ⟨h1, h2.trans (Nat.le_succ _), h3⟩
      · simp only [cycleScan, if_pos hb1, if_neg hb2]
        obtain ⟨h1, h2, h3⟩ := ih (s ++ [cycleKey path]) (c ++ [path])
        exact ⟨h1, h2.trans (Nat.le_succ _), h3⟩
    · by_cases hb3 : next ∉ path ∧ path.length < maxL
      · simp only [cycleScan, if_neg hb1, if_pos hb3]
        obtain ⟨h1, h2, h3⟩ := ih s c
        refine ⟨?_, ?_, fun _ => hb3.2⟩
        · intro f hf
          rcases List.mem_cons.1 hf with rfl | hf'
          · simp
          · exact h1 f hf'
        · simpa using Nat.succ_le_succ h2
      · simp only [cycleScan, if_neg hb1, if_neg hb3]
        obtain ⟨h1, h2, h3⟩ := ih s c
        exact ⟨h1, h2.trans (Nat.le_succ _), h3⟩

theorem cycleStep_measure_lt (adj : AList (List String)) (start : String) (maxL : ℕ)
    (f : Frame) (rest : List Frame) (s : List String) (c : List (List String)) :
    stackMeasure (adjSize adj + 2) maxL
      ((cycleScan start maxL f.path (getD adj f.node []) s c).2.2.reverse ++ rest)
      < stackMeasure (adjSize adj + 2) maxL (f :: rest) := by
  obtain ⟨h1, h2, h3⟩ := cycleScan_pushes start maxL f.path (getD adj f.node []) s c
  refine stack_measure_lt _ _ (by omega) f rest _ h1 ?_ h3
  calc (cycleScan start maxL f.path (getD adj f.node []) s c).2.2.length
      ≤ (getD adj f.node []).length := h2
    _ ≤ adjSize adj := length_getD_le_adjSize adj f.node
    _ = adjSize adj + 2 - 2 := by omega

theorem cycleLoop_stable (adj : AList (List String)) (start : String) (maxL : ℕ) :
    ∀ (k : ℕ) (stack : List Frame) (s : List String) (c : List (List String)) (n m : ℕ),
      stackMeasure (adjSize adj + 2) maxL stack ≤ k →
      stackMeasure (adjSize adj + 2) maxL stack ≤ n →
      stackMeasure (adjSize adj + 2) maxL stack ≤ m →
      cycleLoop adj start maxL stack n s c = cycleLoop adj start maxL stack m s c := by
  intro k
  induction k with
  | zero =>
    intro stack s c n m hk _ _
    cases stack with
    | nil => cases n <;> cases m <;> rfl
    | cons f rest =>
      exfalso
      have := frameWeight_pos (adjSize adj + 2) maxL (by omega) f
      rw [stackMeasure_cons] at hk
      omega
  | succ k ih =>
    intro stack s c n m hk hn hm
    cases stack with
    | nil => cases n <;> cases m <;> rfl
    | cons f rest =>
      have hpos := frameWeight_pos (adjSize adj + 2) maxL (by omega) f
      have h1 : 1 ≤ stackMeasure (adjSize adj + 2) maxL (f :: rest) := by
        rw [stackMeasure_cons]
        omega
      cases n with
      | zero => omega
      | succ n =>
        cases m with
        | zero => omega
        | succ m =>
          simp only [cycleLoop]
          have hdec := cycleStep_measure_lt adj start maxL f rest s c
          exact ih _ _ _ n m (by omega) (by omega) (by omega)

/-- Any fuel at least `cycleFuel` computes the same result as `cycleFuel`
itself: the loop of `detectCycles` always terminates within the provided
fuel, so the embedding agrees with the source's unbounded while loop. -/
theorem cycleLoop_fuel_adequate (adj : AList (List String)) (start : String)
    (maxL : ℕ) (s : List String) (c : List (List String)) (n : ℕ)
    (hn : cycleFuel adj maxL ≤ n) :
    cycleLoop adj start maxL [⟨start, [start]⟩] n s c
      = cycleLoop adj start maxL [⟨start, [start]⟩] (cycleFuel adj maxL) s c := by
  have hmeas : stackMeasure (adjSize adj + 2) maxL [⟨start, [start]⟩]
      ≤ cycleFuel adj maxL := by
    unfold stackMeasure frameWeight cycleFuel
    simp only [List.map_cons, List.map_nil, List.sum_cons, List.sum_nil]
    have : maxL + 1 - ([start] : List String).length = maxL := by simp
    rw [this, Nat.add_zero]
    exact Nat.pow_le_pow_right (by omega) (by omega)
  exact cycleLoop_stable adj start maxL n _ s c n (cycleFuel adj maxL)
    (le_refl n |>.trans_eq' rfl |> fun _ => hmeas.trans hn) (hmeas.trans hn) hmeas

theorem shellPushes_shape (adj : AList (List String)) (f : Frame) :
    (∀ g ∈ shellPushes adj f, g.path.length = f.path.length + 1)
    ∧ (shellPushes adj f).length ≤ (getD adj f.node []).length
    ∧ (shellPushes adj f ≠ [] → f.path.length < 6) := by
  unfold shellPushes
  by_cases hb : f.path.length < 6
  · rw [if_pos hb]
    refine ⟨?_, ?_, fun _ => hb⟩
    · intro g hg
      rcases List.mem_map.1 hg with ⟨next, -, hgf⟩
      subst hgf
      simp
    · calc (((getD adj f.node []).filter (fun next => next ∉ f.path)).map
          (fun next => (⟨next, f.path ++ [next]⟩ : Frame))).length
          = ((getD adj f.node []).filter (fun next => next ∉ f.path)).length :=
            List.length_map _ _
        _ ≤ (getD adj f.node []).length := List.length_filter_le _ _
  · rw [if_neg hb]
    exact ⟨by simp, by simp, by simp⟩

theorem shellStep_measure_lt (adj : AList (List String)) (f : Frame)
    (rest : List Frame) :
    stackMeasure (adjSize adj + 2) 6 ((shellPushes adj f).reverse ++ rest)
      < stackMeasure (adjSize adj + 2) 6 (f :: rest) := by
  obtain ⟨h1, h2, h3⟩ := shellPushes_shape adj f
  refine stack_measure_lt _ _ (by omega) f rest _ h1 ?_ h3
  calc (shellPushes adj f).length ≤ (getD adj f.node []).length := h2
    _ ≤ adjSize adj := length_getD_le_adjSize adj f.node
    _ = adjSize adj + 2 - 2 := by omega

theorem shellLoop_stable (adj : AList (List String)) (tc : AList ℕ) :
    ∀ (k : ℕ) (stack : List Frame) (s : List String) (c : List (List String)) (n m : ℕ),
      stackMeasure (adjSize adj + 2) 6 stack ≤ k →
      stackMeasure (adjSize adj + 2) 6 stack ≤ n →
      stackMeasure (adjSize adj + 2) 6 stack ≤ m →
      shellLoop adj tc stack n s c = shellLoop adj tc stack m s c := by
  intro k
  induction k with
  | zero =>
    intro stack s c n m hk _ _
    cases stack with
    | nil => cases n <;> cases m <;> rfl
    | cons f rest =>
      exfalso
      have := frameWeight_pos (adjSize adj + 2) 6 (by omega) f
      rw [stackMeasure_cons] at hk
      omega
  | succ k ih =>
    intro stack s c n m hk hn hm
    cases stack with
    | nil => cases n <;> cases m <;> rfl
    | cons f rest =>
      have hpos := frameWeight_pos (adjSize adj + 2) 6 (by omega) f
      have h1 : 1 ≤ stackMeasure (adjSize adj + 2) 6 (f :: rest) := by
        rw [stackMeasure_cons]
        omega
      cases n with
      | zero => omega
      | succ n =>
        cases m with
        | zero => omega
        | succ m =>
          simp only [shellLoop]
          have hdec := shellStep_measure_lt adj f rest
          exact ih _ _ _ n m (by omega) (by omega) (by omega)

/-- Any fuel at least `shellFuel` computes the same result as `shellFuel`
itself: the loop of `detectLayeredShells` always terminates within the
provided fuel. -/
theorem shellLoop_fuel_adequate (adj : AList (List String)) (tc : AList ℕ)
    (start : String) (s : List String) (c : List (List String)) (n : ℕ)
    (hn : shellFuel adj ≤ n) :
    shellLoop adj tc [⟨start, [start]⟩] n s c
      = shellLoop adj tc [⟨start, [start]⟩] (shellFuel adj) s c := by
  have hmeas : stackMeasure (adjSize adj + 2) 6 [⟨start, [start]⟩] ≤ shellFuel adj := by
    unfold stackMeasure frameWeight shellFuel
    simp only [List.map_cons, List.map_nil, List.sum_cons, List.sum_nil]
    have : 6 + 1 - ([start] : List String).length = 6 := by simp
    rw [this, Nat.add_zero]
    exact Nat.pow_le_pow_right (by omega) (by omega)
  exact shellLoop_stable adj tc n _ s c n (shellFuel adj)
    (hmeas.trans hn) (hmeas.trans hn) hmeas

end MoneyForensics
